import Mathlib

/-!
# DesignPattern-Singleton-Cpp: the `DatabaseConnection` singleton

A shallow embedding of `DesignPattern-Singleton-Cpp.cpp`.

* `std::string` is `String`, `int` keys are integers (every 32-bit `int` is one
  of them; the program does no arithmetic on keys).
* `std::cout` is the text written so far, and one `<<` appends its operand.
* `std::unordered_map<int, std::string>` is a list of elements whose keys are
  pairwise different; the iteration order is not observable by the program.
* Objects made by `new` live in a heap, a reference is a position in it, and
  `nullptr` is `none`.
* The methods `SaveData` and `GetData` are functions on the object and the
  output. The threads of `main` are a step function on the program state: a
  schedule names the thread that makes the next step. A call of `GetInstance`
  and a call of `GetData` are one step each, since their whole bodies run under
  a mutex and write at most one operand; inside `SaveData` and at line 94 every
  single `<<` is a step of its own, so the operands of different threads can
  alternate on the output. `_dataMutex` is a flag, and a thread that needs it
  while it is held cannot move.
-/

/-! ## Decimal rendering of an `int` -/

/-- The character of one decimal digit. -/
def digitChar : Nat → Char
  | 0 => '0' | 1 => '1' | 2 => '2' | 3 => '3' | 4 => '4'
  | 5 => '5' | 6 => '6' | 7 => '7' | 8 => '8' | _ => '9'

/-- The decimal digits of `n`, most significant first, in front of `acc`.
`fuel` bounds the number of digits; `n + 1` is always enough. -/
def toDigits : Nat → Nat → List Char → List Char
  | 0, _, acc => acc
  | fuel + 1, n, acc =>
    if n < 10 then digitChar n :: acc
    else toDigits fuel (n / 10) (digitChar (n % 10) :: acc)

/-- `std::to_string(int)`, which is also the text `std::cout << key` writes for
an `int`: the decimal digits, with a leading `-` for a negative number. -/
def to_string : Int → String
  | Int.ofNat n => String.mk (toDigits (n + 1) n [])
  | Int.negSucc n => String.mk ('-' :: toDigits (n + 2) (n + 1) [])

/-! ## `std::unordered_map<int, std::string>` -/

/-- The value stored under `key` in a list of entries, if any. -/
def lookup : List (Int × String) → Int → Option String
  | [], _ => none
  | (k, v) :: rest, key => if k = key then some v else lookup rest key

/-- The container `std::unordered_map<int, std::string>`: entries with
pairwise different keys. -/
structure UnorderedMap where
  entries : List (Int × String)
  nodup : (entries.map Prod.fst).Nodup

/-- A default-constructed map. -/
def UnorderedMap.empty : UnorderedMap := ⟨[], List.nodup_nil⟩

/-- `size()`. -/
def UnorderedMap.size (m : UnorderedMap) : Nat := m.entries.length

/-- `find(key)`: the element with this key, or `none` for `end()`. -/
def UnorderedMap.find (m : UnorderedMap) (key : Int) : Option String :=
  lookup m.entries key

/-- The container after `operator[](key)`: when no element has the key, one
with a value-initialised (empty) string is inserted. -/
def UnorderedMap.index (m : UnorderedMap) (key : Int) : UnorderedMap :=
  if h : key ∈ m.entries.map Prod.fst then m
  else ⟨(key, "") :: m.entries, by
    rw [List.map_cons, List.nodup_cons]
    exact ⟨h, m.nodup⟩⟩

/-- Reading through the reference `operator[](key)` returned. -/
def UnorderedMap.get (m : UnorderedMap) (key : Int) : String :=
  (lookup m.entries key).getD ""

/-- One element after `value` is assigned to the element with key `key`. -/
def setEntry (key : Int) (value : String) (e : Int × String) : Int × String :=
  if e.1 = key then (e.1, value) else e

/-- Assigning `value` through the reference `operator[](key)` returned. -/
def UnorderedMap.set (m : UnorderedMap) (key : Int) (value : String) : UnorderedMap :=
  ⟨m.entries.map (setEntry key value), by
    have hkeys : (m.entries.map (setEntry key value)).map Prod.fst
        = m.entries.map Prod.fst := by
      rw [List.map_map]
      apply List.map_congr_left
      intro e _
      show (if e.1 = key then (e.1, value) else e).1 = e.1
      split <;> rfl
    rw [hkeys]
    exact m.nodup⟩

/-! ## `DatabaseConnection`: the data and its two methods -/

/-- The data member `_database` of a `DatabaseConnection` object. The mutex
`_dataMutex` is kept beside the object in the heap (`Cell`). -/
structure DatabaseConnection where
  _database : UnorderedMap

/-- Writing a sequence of operands to a stream, one `<<` after the other. -/
def insertAll (cout : String) (chunks : List String) : String :=
  chunks.foldl (fun out chunk => out ++ chunk) cout

/-- Line 34, `_database[key] = value`. -/
def DatabaseConnection.store (self : DatabaseConnection) (key : Int) (value : String) :
    DatabaseConnection :=
  { _database := (self._database.index key).set key value }

/-- Line 35: the five operands `SaveData` writes to `std::cout`, in order. -/
def SaveData_output (key : Int) (value : String) : List String :=
  ["Data Saved: Key = ", to_string key, ", Value = ", value, "\n"]

/-- `DatabaseConnection::SaveData`, run without interruption: the object and
the text of `std::cout` after the call. -/
def DatabaseConnection.SaveData (self : DatabaseConnection) (key : Int) (value : String)
    (cout : String) : DatabaseConnection × String :=
  (self.store key value, insertAll cout (SaveData_output key value))

/-- `DatabaseConnection::GetData`: the returned string and the object after the
call (the method is not `const`, and `operator[]` may insert). -/
def DatabaseConnection.GetData (self : DatabaseConnection) (key : Int) :
    String × DatabaseConnection :=
  if (self._database.find key).isSome then
    let db := self._database.index key
    ("Data for Key " ++ to_string key ++ ": " ++ db.get key, { _database := db })
  else
    ("No Data found for Key " ++ to_string key, self)

/-- A call on the shared object. -/
inductive Call where
  | save (key : Int) (value : String)
  | get (key : Int)

/-- One call made on an object; what `GetData` returns is dropped. -/
def perform (s : DatabaseConnection × String) : Call → DatabaseConnection × String
  | Call.save key value => s.1.SaveData key value s.2
  | Call.get key => ((s.1.GetData key).2, s.2)

/-- A sequence of calls, one after the other. -/
def performAll (s : DatabaseConnection × String) (calls : List Call) :
    DatabaseConnection × String :=
  calls.foldl perform s

/-- The text `part` occurs in `s`. -/
def occursIn (part s : String) : Prop := part.data <:+: s.data

/-- The text `s` starts with `start`. -/
def startsWith (s start : String) : Prop := start.data <+: s.data

/-- The number of newline characters of a text. -/
def newlines (s : String) : Nat := s.data.count '\n'

/-- The empty store. -/
def DatabaseConnection.new : DatabaseConnection := { _database := UnorderedMap.empty }

/-! ## The heap and `GetInstance` -/

/-- An object made by `new DatabaseConnection()` and the state of its mutex
`_dataMutex` (`true` while a `std::lock_guard` holds it). -/
structure Cell where
  object : DatabaseConnection
  _dataMutex : Bool

/-- What all threads share: the text on `std::cout`, the objects made by `new`
(a reference is a position in `heap`; every allocation runs the constructor, so
`heap.length` counts the constructor runs) and the static pointer `_instance`
(`none` is `nullptr`). -/
structure Process where
  cout : String
  heap : List Cell
  _instance : Option Nat

/-- The state at program start: line 77 sets `_instance` to `nullptr`. -/
def Process.initial : Process := { cout := "", heap := [], _instance := none }

/-- The notice the constructor writes (line 61), one operand. -/
def creationNotice : String := "Database Connection Created.\n"

/-- `new DatabaseConnection()`: a fresh object with an empty map and a free
mutex is placed at a new position, and the constructor (lines 59-62) writes its
notice. Returns the position. -/
def Process.construct (p : Process) : Nat × Process :=
  (p.heap.length,
   { p with cout := p.cout ++ creationNotice,
            heap := p.heap ++ [{ object := DatabaseConnection.new, _dataMutex := false }] })

/-- `DatabaseConnection::GetInstance` (lines 15-23), one atomic step: the whole
body runs under the static `_mutex`, which is free before and after the call.
Returns the reference and the state after the call. -/
def GetInstance (p : Process) : Nat × Process :=
  match p._instance with
  | none =>
    let r := p.construct
    (r.1, { r.2 with _instance := some r.1 })
  | some a => (a, p)

/-- A sequence of `GetInstance` calls, one per caller in the order given: the
reference each caller received, and the state after the last call. -/
def GetInstance_calls : List Nat → Process → List (Nat × Nat) × Process
  | [], p => ([], p)
  | caller :: rest, p =>
    let r := GetInstance p
    let after := GetInstance_calls rest r.2
    ((caller, r.1) :: after.1, after.2)

/-! ## Threads running `ThreadFunction` -/

/-- The value `ThreadFunction` saves (line 93). -/
def threadValue (key : Int) : String := "Data from thread " ++ to_string key

/-- Where a thread stands in `ThreadFunction`. -/
inductive Pc where
  /-- Line 87 not run yet. -/
  | start
  /-- `GetInstance` returned `inst`; `SaveData` not entered yet. -/
  | acquired (inst : Nat)
  /-- Inside `SaveData`, holding `_dataMutex`, line 34 done; `pending` are the
  operands of line 35 not written yet. -/
  | inSave (inst : Nat) (pending : List String)
  /-- `SaveData` returned; `GetData` not entered yet. -/
  | saved (inst : Nat)
  /-- `GetData` returned; `pending` are the operands of line 94 not written yet. -/
  | printing (pending : List String)
  /-- `ThreadFunction` returned. -/
  | done

/-- One thread: the key line 90 derives from its id, its position, and what
`GetData` returned to it, once it has. -/
structure Thread where
  key : Int
  pc : Pc
  result : Option String

/-- The program state: the shared state and the threads `main` started. -/
structure System where
  proc : Process
  threads : List Thread

/-- `ThreadFunction` (lines 84-95), step by step: one atomic step of thread `i`
in its run of the function, or `none` when the thread does not exist,
has returned, or waits for a mutex that is held. The steps are: the call of
`GetInstance`; taking `_dataMutex` with the assignment of line 34; each single
`<<` of line 35; leaving `SaveData`, which frees the mutex; the call of
`GetData`, which needs the mutex free; each single `<<` of line 94; the return. -/
def ThreadFunction_step (s : System) (i : Nat) : Option System :=
  match s.threads[i]? with
  | none => none
  | some t =>
    match t.pc with
    | Pc.start =>
      let r := GetInstance s.proc
      some { proc := r.2, threads := s.threads.set i { t with pc := Pc.acquired r.1 } }
    | Pc.acquired inst =>
      match s.proc.heap[inst]? with
      | none => none
      | some c =>
        if c._dataMutex then none
        else some {
          proc := { s.proc with
            heap := s.proc.heap.set inst
              { object := c.object.store t.key (threadValue t.key), _dataMutex := true } },
          threads := s.threads.set i
            { t with pc := Pc.inSave inst (SaveData_output t.key (threadValue t.key)) } }
    | Pc.inSave inst (chunk :: rest) =>
      some { proc := { s.proc with cout := s.proc.cout ++ chunk },
             threads := s.threads.set i { t with pc := Pc.inSave inst rest } }
    | Pc.inSave inst [] =>
      match s.proc.heap[inst]? with
      | none => none
      | some c =>
        some { proc := { s.proc with heap := s.proc.heap.set inst { c with _dataMutex := false } },
               threads := s.threads.set i { t with pc := Pc.saved inst } }
    | Pc.saved inst =>
      match s.proc.heap[inst]? with
      | none => none
      | some c =>
        if c._dataMutex then none
        else
          let r := c.object.GetData t.key
          some { proc := { s.proc with heap := s.proc.heap.set inst { c with object := r.2 } },
                 threads := s.threads.set i
                   { t with pc := Pc.printing [r.1, "\n"], result := some r.1 } }
    | Pc.printing (chunk :: rest) =>
      some { proc := { s.proc with cout := s.proc.cout ++ chunk },
             threads := s.threads.set i { t with pc := Pc.printing rest } }
    | Pc.printing [] =>
      some { s with threads := s.threads.set i { t with pc := Pc.done } }
    | Pc.done => none

/-- The steps of a schedule (the thread that moves, step by step), or `none`
when the schedule asks a thread to move that cannot. -/
def run (s : System) : List Nat → Option System
  | [] => some s
  | i :: rest =>
    match ThreadFunction_step s i with
    | none => none
    | some next => run next rest

/-- The state after the threads with the given keys were started (line 103). -/
def spawn (keys : List Int) : System :=
  { proc := Process.initial,
    threads := keys.map (fun k => { key := k, pc := Pc.start, result := none }) }

/-- The state of `main` after line 104: its five threads (line 100) are started,
with the keys they derive. -/
def mainThreads (k0 k1 k2 k3 k4 : Int) : System := spawn [k0, k1, k2, k3, k4]

/-- The thread has returned. -/
def Thread.isDone (t : Thread) : Bool :=
  match t.pc with
  | Pc.done => true
  | _ => false

/-- All threads have returned, so all joins of `main` (lines 107-113) return. -/
def finished (s : System) : Prop := ∀ t ∈ s.threads, t.isDone = true

instance finished.decidable (s : System) : Decidable (finished s) :=
  inferInstanceAs (Decidable (∀ t ∈ s.threads, t.isDone = true))

/-- The number of elements stored in the objects made so far. -/
def stored (s : System) : Nat :=
  (s.proc.heap.map (fun c => c.object._database.size)).sum

/-- The string `GetData` returns for a key whose element holds the value
`ThreadFunction` saved. -/
def foundResult (key : Int) : String :=
  "Data for Key " ++ to_string key ++ ": " ++ threadValue key

/-! ## Invariants of the executions -/

/-- The thread has run line 34 of its `SaveData` call. -/
def Thread.pastSave (t : Thread) : Bool :=
  match t.pc with
  | Pc.start => false
  | Pc.acquired _ => false
  | _ => true

/-- The newline characters the thread has still to write. -/
def Thread.owed (t : Thread) : Nat :=
  match t.pc with
  | Pc.start => 2
  | Pc.acquired _ => 2
  | Pc.inSave _ pending => (pending.map newlines).sum + 1
  | Pc.saved _ => 1
  | Pc.printing pending => (pending.map newlines).sum
  | Pc.done => 0

/-- What holds of a thread while the one object `db` exists: its reference is
position 0, its element is in the map once line 34 has run, and its result is
the found form once `GetData` has returned. -/
def ThreadOk (db : DatabaseConnection) (t : Thread) : Prop :=
  match t.pc with
  | Pc.start => t.result = none
  | Pc.acquired inst => inst = 0 ∧ t.result = none
  | Pc.inSave inst _ =>
    inst = 0 ∧ t.result = none ∧ db._database.find t.key = some (threadValue t.key)
  | Pc.saved inst =>
    inst = 0 ∧ t.result = none ∧ db._database.find t.key = some (threadValue t.key)
  | Pc.printing _ =>
    t.result = some (foundResult t.key) ∧ db._database.find t.key = some (threadValue t.key)
  | Pc.done =>
    t.result = some (foundResult t.key) ∧ db._database.find t.key = some (threadValue t.key)

/-- Before the first `GetInstance` call: nothing is constructed or written and
every thread is at its start. -/
def Fresh (s : System) : Prop :=
  s.proc.heap = [] ∧ s.proc._instance = none ∧ s.proc.cout = ""
    ∧ ∀ t ∈ s.threads, t.pc = Pc.start ∧ t.result = none

/-- After the first `GetInstance` call: one object exists, `_instance` points to
it, the output starts with the notice, every thread is in order, and every
element of the map was saved by a thread. -/
def Built (s : System) (c : Cell) : Prop :=
  s.proc.heap = [c] ∧ s.proc._instance = some 0 ∧ startsWith s.proc.cout creationNotice
    ∧ (∀ t ∈ s.threads, ThreadOk c.object t)
    ∧ ∀ k v, c.object._database.find k = some v →
        ∃ t ∈ s.threads, t.key = k ∧ t.pastSave = true

/-- The invariant of every state reached from `spawn keys`. -/
def Invariant (keys : List Int) (s : System) : Prop :=
  s.threads.map Thread.key = keys
    ∧ newlines s.proc.cout + (s.threads.map Thread.owed).sum
        = 2 * s.threads.length + s.proc.heap.length
    ∧ (Fresh s ∨ ∃ c, Built s c)

/-! ## Lines of the output and executions call by call -/

instance startsWith.decidable (s start : String) : Decidable (startsWith s start) :=
  inferInstanceAs (Decidable (start.data <+: s.data))

/-- The lines of the characters that follow, after the characters `cur` of the
line being read (last one first). -/
def linesAux : List Char → List Char → List String
  | [], cur => if cur = [] then [] else [String.mk cur.reverse]
  | c :: rest, cur =>
    if c = '\n' then String.mk cur.reverse :: linesAux rest []
    else linesAux rest (c :: cur)

/-- The lines of a text, without their newline characters: the pieces each
newline character ends, and what follows the last one when it is not empty. -/
def lines (s : String) : List String := linesAux s.data []

/-- The line one `SaveData` call of `ThreadFunction` writes when nothing is
written between its operands. -/
def saveLine (key : Int) : String :=
  "Data Saved: Key = " ++ to_string key ++ ", Value = " ++ threadValue key ++ "\n"

/-- The line `ThreadFunction` writes at line 94 for a found result when nothing
is written between its two operands. -/
def foundLine (key : Int) : String := foundResult key ++ "\n"

/-- The number of consecutive steps that take the thread through its next call:
`GetInstance` (1), `SaveData` (entry, five operands, exit), `GetData` (1), the
output of line 94 with the return (3). -/
def Thread.callSteps (t : Thread) : Nat :=
  match t.pc with
  | Pc.start => 1
  | Pc.acquired _ => 7
  | Pc.saved _ => 1
  | Pc.printing _ => 3
  | Pc.inSave _ _ => 0
  | Pc.done => 0

/-- An execution in which every call runs without a step of another thread in
between: each entry of the schedule lets that thread run the steps of its next
call in a row. -/
def runCalls (s : System) : List Nat → Option System
  | [] => some s
  | i :: rest =>
    match s.threads[i]? with
    | none => none
    | some t =>
      if t.callSteps = 0 then none
      else
        match run s (List.replicate t.callSteps i) with
        | none => none
        | some next => runCalls next rest

/-- The whole lines a thread has written when it stands between two calls. -/
def Thread.written (t : Thread) : List String :=
  match t.pc with
  | Pc.start => []
  | Pc.acquired _ => []
  | Pc.inSave _ _ => [saveLine t.key]
  | Pc.saved _ => [saveLine t.key]
  | Pc.printing _ => [saveLine t.key]
  | Pc.done => [saveLine t.key, foundLine t.key]

/-- The thread stands between two calls. -/
def AtCall (t : Thread) : Prop :=
  match t.pc with
  | Pc.inSave _ _ => False
  | Pc.printing pending => pending = [foundResult t.key, "\n"]
  | _ => True

/-- The invariant of the states between calls: no mutex is held and the output
is the notice, once written, followed by the whole lines written so far. -/
def CallInvariant (s : System) : Prop :=
  (∀ t ∈ s.threads, AtCall t) ∧ (∀ c ∈ s.proc.heap, c._dataMutex = false)
    ∧ ∃ body, s.proc.cout = insertAll (if s.proc.heap.isEmpty then "" else creationNotice) body
        ∧ List.Perm body (s.threads.flatMap Thread.written)

/-! ## Progress -/

/-- The thread is inside `SaveData`, where it holds `_dataMutex`. -/
def Thread.holdsMutex (t : Thread) : Bool :=
  match t.pc with
  | Pc.inSave _ _ => true
  | _ => false

/-- The number of steps the thread has still to make. -/
def Thread.remaining (t : Thread) : Nat :=
  match t.pc with
  | Pc.start => 12
  | Pc.acquired _ => 11
  | Pc.inSave _ pending => pending.length + 5
  | Pc.saved _ => 4
  | Pc.printing pending => pending.length + 1
  | Pc.done => 0

/-- A mutex that is held is held by a thread inside `SaveData`. -/
def MutexInvariant (s : System) : Prop :=
  ∀ c ∈ s.proc.heap, c._dataMutex = true → ∃ t ∈ s.threads, t.holdsMutex = true

/-! ## The decimal rendering agrees with the standard one -/

theorem digitChar_eq (d : Nat) (h : d < 10) : digitChar d = Nat.digitChar d := by
  interval_cases d <;> rfl

theorem toDigits_eq (fuel n : Nat) (acc : List Char) :
    toDigits fuel n acc = Nat.toDigitsCore 10 fuel n acc := by
  induction fuel generalizing n acc with
  | zero => rfl
  | succ fuel ih =>
    unfold toDigits Nat.toDigitsCore
    by_cases h : n < 10
    · have h0 : n / 10 = 0 := by omega
      have hm : n % 10 = n := by omega
      simp only [h, h0, hm, if_true]
      rw [digitChar_eq n h]
    · have h0 : ¬ n / 10 = 0 := by omega
      simp only [h, h0, if_false]
      rw [ih, digitChar_eq (n % 10) (by omega)]

/-- The function `to_string` is the usual decimal rendering of an integer. -/
theorem to_string_eq_toString (k : Int) : to_string k = toString k := by
  cases k with
  | ofNat n =>
    show String.mk (toDigits (n + 1) n []) = Nat.repr n
    rw [toDigits_eq]
    rfl
  | negSucc n =>
    show String.mk ('-' :: toDigits (n + 2) (n + 1) []) = "-" ++ Nat.repr (n + 1)
    rw [toDigits_eq]
    rfl

/-! ## Facts about the container -/

theorem lookup_eq_none_iff (l : List (Int × String)) (key : Int) :
    lookup l key = none ↔ key ∉ l.map Prod.fst := by
  induction l with
  | nil => simp [lookup]
  | cons e rest ih =>
    obtain ⟨k, v⟩ := e
    by_cases h : k = key
    · simp [lookup, h]
    · simp [lookup, h, ih, Ne.symm h]

theorem setEntry_fst (key : Int) (value : String) (e : Int × String) :
    (setEntry key value e).1 = e.1 := by
  unfold setEntry; split <;> rfl

theorem lookup_map_set (l : List (Int × String)) (key k : Int) (value : String) :
    lookup (l.map (setEntry key value)) k
      = if k = key then (lookup l k).map (fun _ => value) else lookup l k := by
  induction l with
  | nil => simp [lookup]
  | cons e rest ih =>
    obtain ⟨k0, v0⟩ := e
    rw [List.map_cons]
    by_cases h0 : k0 = key
    · have he : setEntry key value (k0, v0) = (k0, value) := by simp [setEntry, h0]
      rw [he]
      by_cases h1 : k0 = k
      · have hk : k = key := by rw [← h1, h0]
        simp [lookup, h1, hk]
      · simp only [lookup, if_neg h1, ih]
    · have he : setEntry key value (k0, v0) = (k0, v0) := by simp [setEntry, h0]
      rw [he]
      by_cases h1 : k0 = k
      · have hk : ¬ k = key := fun h => h0 (by rw [h1, h])
        simp [lookup, h1, hk]
      · simp only [lookup, if_neg h1, ih]

theorem find_index (m : UnorderedMap) (key k : Int) :
    (m.index key).find k
      = if k = key then some ((m.find key).getD "") else m.find k := by
  unfold UnorderedMap.index UnorderedMap.find
  by_cases h : key ∈ m.entries.map Prod.fst
  · rw [dif_pos h]
    by_cases hk : k = key
    · subst hk
      rw [if_pos rfl]
      cases hl : lookup m.entries k with
      | none => exact absurd h ((lookup_eq_none_iff _ _).1 hl)
      | some v => rfl
    · rw [if_neg hk]
  · rw [dif_neg h]
    have hn : lookup m.entries key = none := (lookup_eq_none_iff _ _).2 h
    by_cases hk : k = key
    · subst hk; simp [lookup, hn]
    · simp [lookup, hk, Ne.symm hk]

theorem find_store (self : DatabaseConnection) (key k : Int) (value : String) :
    (self.store key value)._database.find k
      = if k = key then some value else self._database.find k := by
  show lookup ((self._database.index key).entries.map _) k = _
  rw [lookup_map_set]
  have h := find_index self._database key k
  unfold UnorderedMap.find at h
  by_cases hk : k = key
  · subst hk; simp [h]
  · simp only [if_neg hk] at h ⊢
    exact h

theorem index_of_find_isSome (m : UnorderedMap) (key : Int)
    (h : (m.find key).isSome = true) : m.index key = m := by
  unfold UnorderedMap.index
  by_cases hm : key ∈ m.entries.map Prod.fst
  · rw [dif_pos hm]
  · have hn : lookup m.entries key = none := (lookup_eq_none_iff _ _).2 hm
    unfold UnorderedMap.find at h
    rw [hn] at h
    exact absurd h (by decide)

/-- What `GetData` returns, by the result of the search. -/
theorem GetData_fst (self : DatabaseConnection) (key : Int) :
    (self.GetData key).1
      = match self._database.find key with
        | some v => "Data for Key " ++ to_string key ++ ": " ++ v
        | none => "No Data found for Key " ++ to_string key := by
  unfold DatabaseConnection.GetData
  cases hf : self._database.find key with
  | none => simp
  | some v =>
    have hi : self._database.index key = self._database :=
      index_of_find_isSome _ _ (by rw [hf]; rfl)
    have hg : self._database.get key = v := by
      unfold UnorderedMap.find at hf
      unfold UnorderedMap.get
      rw [hf]; rfl
    simp [hi, hg]

/-- The object after `GetData` is the object before it. -/
theorem GetData_snd (self : DatabaseConnection) (key : Int) :
    (self.GetData key).2 = self := by
  unfold DatabaseConnection.GetData
  by_cases hf : (self._database.find key).isSome = true
  · rw [if_pos hf]
    show ({ _database := self._database.index key } : DatabaseConnection) = self
    rw [index_of_find_isSome _ _ hf]
  · rw [if_neg hf]

theorem find_perform (s : DatabaseConnection × String) (c : Call) (k : Int)
    (h : ∀ v, c ≠ Call.save k v) :
    (perform s c).1._database.find k = s.1._database.find k := by
  cases c with
  | save key value =>
    have hk : ¬ k = key := fun e => h value (by rw [e])
    show (s.1.store key value)._database.find k = _
    rw [find_store, if_neg hk]
  | get key =>
    show (s.1.GetData key).2._database.find k = _
    rw [GetData_snd]

theorem find_performAll (calls : List Call) (s : DatabaseConnection × String) (k : Int)
    (h : ∀ v, Call.save k v ∉ calls) :
    (performAll s calls).1._database.find k = s.1._database.find k := by
  induction calls generalizing s with
  | nil => rfl
  | cons c rest ih =>
    show (performAll (perform s c) rest).1._database.find k = _
    rw [ih (perform s c) (fun v hv => h v (List.mem_cons_of_mem _ hv))]
    exact find_perform s c k (fun v e => h v (by rw [e]; exact List.mem_cons_self _ _))

/-! ## Facts about texts -/

theorem occursIn_middle (a part b : String) : occursIn part (a ++ part ++ b) := by
  unfold occursIn
  exact ⟨a.data, b.data, by simp [String.data_append]⟩

theorem occursIn_end (a part : String) : occursIn part (a ++ part) := by
  unfold occursIn
  exact ⟨a.data, [], by simp [String.data_append]⟩

theorem newlines_append (a b : String) : newlines (a ++ b) = newlines a + newlines b := by
  unfold newlines
  rw [String.data_append, List.count_append]

theorem digitChar_ne_newline (d : Nat) : digitChar d ≠ '\n' := by
  unfold digitChar
  split <;> decide

theorem toDigits_no_newline (fuel n : Nat) (acc : List Char)
    (h : ∀ c ∈ acc, c ≠ '\n') : ∀ c ∈ toDigits fuel n acc, c ≠ '\n' := by
  induction fuel generalizing n acc with
  | zero => exact h
  | succ fuel ih =>
    unfold toDigits
    split
    · intro c hc
      rcases List.mem_cons.1 hc with rfl | hc
      · exact digitChar_ne_newline n
      · exact h c hc
    · apply ih
      intro c hc
      rcases List.mem_cons.1 hc with rfl | hc
      · exact digitChar_ne_newline _
      · exact h c hc

theorem newlines_to_string (k : Int) : newlines (to_string k) = 0 := by
  unfold newlines
  rw [List.count_eq_zero]
  cases k with
  | ofNat n =>
    intro hc
    exact toDigits_no_newline (n + 1) n [] (fun c hc => absurd hc (List.not_mem_nil c)) _ hc rfl
  | negSucc n =>
    intro hc
    rcases List.mem_cons.1 hc with h | hc
    · exact absurd h (by decide)
    · exact toDigits_no_newline (n + 2) (n + 1) [] (fun c hc => absurd hc (List.not_mem_nil c)) _ hc rfl

/-! ## Facts about lists of threads -/

theorem map_set_of_eq {α β : Type} (f : α → β) (l : List α) (i : Nat) (t t' : α)
    (h : l[i]? = some t) (hf : f t' = f t) : (l.set i t').map f = l.map f := by
  induction l generalizing i with
  | nil => rfl
  | cons x rest ih =>
    cases i with
    | zero =>
      have hx : x = t := by simpa using h
      simp [hx, hf]
    | succ j =>
      have hj : rest[j]? = some t := by simpa using h
      simp [ih j hj]

theorem sum_map_set {α : Type} (f : α → Nat) (l : List α) (i : Nat) (t t' : α)
    (h : l[i]? = some t) : ((l.set i t').map f).sum + f t = (l.map f).sum + f t' := by
  induction l generalizing i with
  | nil => simp at h
  | cons x rest ih =>
    cases i with
    | zero =>
      have hx : x = t := by simpa using h
      simp [hx]
      omega
    | succ j =>
      have hj : rest[j]? = some t := by simpa using h
      have := ih j hj
      simp only [List.set_cons_succ, List.map_cons, List.sum_cons]
      omega

theorem mem_set_self {α : Type} (l : List α) (i : Nat) (t t' : α) (h : l[i]? = some t) :
    t' ∈ l.set i t' := by
  induction l generalizing i with
  | nil => simp at h
  | cons x rest ih =>
    cases i with
    | zero => simp
    | succ j =>
      have hj : rest[j]? = some t := by simpa using h
      simp [ih j hj]

theorem exists_mem_set {α : Type} (P : α → Prop) (l : List α) (i : Nat) (t t' : α)
    (h : l[i]? = some t) (hP : P t → P t') (hex : ∃ x ∈ l, P x) : ∃ x ∈ l.set i t', P x := by
  induction l generalizing i with
  | nil => simp at h
  | cons x rest ih =>
    obtain ⟨y, hy, hPy⟩ := hex
    cases i with
    | zero =>
      have hx : x = t := by simpa using h
      rcases List.mem_cons.1 hy with rfl | hy
      · exact ⟨t', by simp, hP (hx ▸ hPy)⟩
      · exact ⟨y, by simp [hy], hPy⟩
    | succ j =>
      have hj : rest[j]? = some t := by simpa using h
      rcases List.mem_cons.1 hy with rfl | hy
      · exact ⟨y, by simp, hPy⟩
      · obtain ⟨z, hz, hPz⟩ := ih j hj ⟨y, hy, hPy⟩
        exact ⟨z, by simp [hz], hPz⟩

theorem forall_mem_set {α : Type} (P : α → Prop) (l : List α) (i : Nat) (t' : α)
    (hall : ∀ x ∈ l, P x) (hP : P t') : ∀ x ∈ l.set i t', P x := by
  intro x hx
  rcases List.mem_or_eq_of_mem_set hx with h | h
  · exact hall x h
  · rw [h]; exact hP

theorem mem_of_getElem?_eq {α : Type} (l : List α) (i : Nat) (t : α) (h : l[i]? = some t) :
    t ∈ l := by
  induction l generalizing i with
  | nil => simp at h
  | cons x rest ih =>
    cases i with
    | zero =>
      have hx : x = t := by simpa using h
      simp [hx]
    | succ j =>
      have hj : rest[j]? = some t := by simpa using h
      simp [ih j hj]

/-! ## Facts about the texts the threads write -/

theorem newlines_threadValue (key : Int) : newlines (threadValue key) = 0 := by
  unfold threadValue
  rw [newlines_append, newlines_to_string]
  decide

theorem newlines_SaveData_output (key : Int) :
    ((SaveData_output key (threadValue key)).map newlines).sum = 1 := by
  have h1 : newlines "Data Saved: Key = " = 0 := by decide
  have h2 : newlines ", Value = " = 0 := by decide
  have h3 : newlines "\n" = 1 := by decide
  simp [SaveData_output, newlines_to_string, newlines_threadValue, h1, h2, h3]

theorem newlines_foundResult (key : Int) : newlines (foundResult key) = 0 := by
  unfold foundResult
  rw [newlines_append, newlines_append, newlines_append, newlines_to_string,
    newlines_threadValue]
  have h1 : newlines "Data for Key " = 0 := by decide
  have h2 : newlines ": " = 0 := by decide
  omega

theorem startsWith_append (s start chunk : String) (h : startsWith s start) :
    startsWith (s ++ chunk) start := by
  unfold startsWith at *
  obtain ⟨t, ht⟩ := h
  exact ⟨t ++ chunk.data, by rw [String.data_append, ← ht, List.append_assoc]⟩

theorem GetData_found (db : DatabaseConnection) (key : Int)
    (h : db._database.find key = some (threadValue key)) :
    (db.GetData key).1 = foundResult key := by
  rw [GetData_fst, h]
  rfl

theorem ThreadOk_store (db : DatabaseConnection) (k : Int) (t : Thread) (h : ThreadOk db t) :
    ThreadOk (db.store k (threadValue k)) t := by
  have hfind : db._database.find t.key = some (threadValue t.key) →
      (db.store k (threadValue k))._database.find t.key = some (threadValue t.key) := by
    intro hf
    rw [find_store]
    by_cases hk : t.key = k
    · rw [if_pos hk, hk]
    · rw [if_neg hk, hf]
  unfold ThreadOk at *
  cases hpc : t.pc <;> simp only [hpc] at h ⊢
  · exact h
  · exact h
  · exact ⟨h.1, h.2.1, hfind h.2.2⟩
  · exact ⟨h.1, h.2.1, hfind h.2.2⟩
  · exact ⟨h.1, hfind h.2⟩
  · exact ⟨h.1, hfind h.2⟩

theorem GetInstance_of_constructed (p : Process) (a : Nat) (h : p._instance = some a) :
    GetInstance p = (a, p) := by
  unfold GetInstance
  rw [h]

theorem Built_update (s : System) (c c' : Cell) (p' : Process) (i : Nat) (t t' : Thread)
    (hb : Built s c) (hti : s.threads[i]? = some t)
    (hheap : p'.heap = [c']) (hinst : p'._instance = some 0)
    (hcout : startsWith p'.cout creationNotice)
    (hobj : c'.object = c.object
      ∨ (c'.object = c.object.store t'.key (threadValue t'.key) ∧ t'.pastSave = true))
    (hok : ThreadOk c'.object t') (hkey : t'.key = t.key)
    (hpast : t.pastSave = true → t'.pastSave = true) :
    Built { proc := p', threads := s.threads.set i t' } c' := by
  obtain ⟨_, _, _, hthreads, hstore⟩ := hb
  refine ⟨hheap, hinst, hcout, ?_, ?_⟩
  · apply forall_mem_set _ _ _ _ _ hok
    intro x hx
    rcases hobj with h | ⟨h, _⟩
    · rw [h]; exact hthreads x hx
    · rw [h]; exact ThreadOk_store _ _ _ (hthreads x hx)
  · intro k v hfind
    have hold : (∃ w, c.object._database.find k = some w) → ∃ x ∈ s.threads.set i t',
        x.key = k ∧ x.pastSave = true := by
      rintro ⟨w, hw⟩
      exact exists_mem_set (fun x => x.key = k ∧ x.pastSave = true) _ _ _ _ hti
        (fun h => ⟨by rw [hkey]; exact h.1, hpast h.2⟩) (hstore k w hw)
    rcases hobj with h | ⟨h, hp⟩
    · rw [h] at hfind
      exact hold ⟨v, hfind⟩
    · rw [h, find_store] at hfind
      by_cases hk : k = t'.key
      · exact ⟨t', mem_set_self _ _ _ _ hti, hk.symm, hp⟩
      · rw [if_neg hk] at hfind
        exact hold ⟨v, hfind⟩

theorem count_update (s : System) (p' : Process) (i : Nat) (t t' : Thread)
    (hti : s.threads[i]? = some t)
    (hcount : newlines s.proc.cout + (s.threads.map Thread.owed).sum
      = 2 * s.threads.length + s.proc.heap.length)
    (h : newlines p'.cout + t'.owed + s.proc.heap.length
      = newlines s.proc.cout + t.owed + p'.heap.length) :
    newlines p'.cout + ((s.threads.set i t').map Thread.owed).sum
      = 2 * (s.threads.set i t').length + p'.heap.length := by
  have hsum := sum_map_set Thread.owed s.threads i t t' hti
  rw [List.length_set]
  omega

theorem step_invariant (keys : List Int) (s next : System) (i : Nat)
    (hinv : Invariant keys s) (hstep : ThreadFunction_step s i = some next) : Invariant keys next := by
  obtain ⟨hkeys, hcount, hshape⟩ := hinv
  unfold ThreadFunction_step at hstep
  cases hti : s.threads[i]? with
  | none => simp [hti] at hstep
  | some t =>
    simp only [hti] at hstep
    have hmem : t ∈ s.threads := mem_of_getElem?_eq _ _ _ hti
    obtain ⟨key, pc, result⟩ := t
    cases pc with
    | start =>
      simp only [Option.some.injEq] at hstep
      subst hstep
      refine ⟨?_, ?_, ?_⟩
      · rw [← hkeys]; exact map_set_of_eq _ _ _ _ _ hti rfl
      · apply count_update s _ i _ _ hti hcount
        rcases hshape with hf | ⟨c, hb⟩
        · have h1 : newlines creationNotice = 1 := by decide
          have h0 : newlines "" = 0 := by decide
          simp [GetInstance, Process.construct, hf.2.1, hf.1, hf.2.2.1, newlines_append, h1, h0,
            Thread.owed]
        · simp [GetInstance, hb.2.1, Thread.owed]
      · right
        rcases hshape with hf | ⟨c, hb⟩
        · refine ⟨{ object := DatabaseConnection.new, _dataMutex := false }, ?_, ?_, ?_, ?_, ?_⟩
          · simp [GetInstance, Process.construct, hf.2.1, hf.1]
          · simp [GetInstance, Process.construct, hf.2.1, hf.1]
          · simp [GetInstance, Process.construct, hf.2.1, hf.1, hf.2.2.1, startsWith]
          · apply forall_mem_set
            · intro x hx
              have := hf.2.2.2 x hx
              simp [ThreadOk, this.1, this.2]
            · have := hf.2.2.2 _ hmem
              simp [GetInstance, Process.construct, hf.2.1, hf.1, ThreadOk] 
              exact this.2
          · intro k v hfind
            exact absurd hfind (by simp [DatabaseConnection.new, UnorderedMap.empty,
              UnorderedMap.find, lookup])
        · have hok := hb.2.2.2.1 _ hmem
          have hg : GetInstance s.proc = (0, s.proc) := GetInstance_of_constructed _ _ hb.2.1
          rw [hg]
          refine ⟨c, Built_update s c c s.proc i _ _ hb hti hb.1 hb.2.1 hb.2.2.1 (Or.inl rfl)
            ?_ rfl ?_⟩
          · simp only [ThreadOk] at hok ⊢
            exact ⟨trivial, hok⟩
          · intro h; exact absurd h (by simp [Thread.pastSave])
    | acquired inst =>
      rcases hshape with hf | ⟨c, hb⟩
      · exact absurd (hf.2.2.2 _ hmem).1 (by simp)
      · have hok := hb.2.2.2.1 _ hmem
        simp only [ThreadOk] at hok
        obtain ⟨rfl, hres⟩ := hok
        simp only [hb.1, List.getElem?_cons_zero] at hstep
        by_cases hlock : c._dataMutex = true
        · simp [hlock] at hstep
        · simp only [hlock, Bool.false_eq_true, if_false, Option.some.injEq] at hstep
          subst hstep
          refine ⟨?_, ?_, ?_⟩
          · rw [← hkeys]; exact map_set_of_eq _ _ _ _ _ hti rfl
          · apply count_update s _ i _ _ hti hcount
            simp [Thread.owed, newlines_SaveData_output, hb.1]
          · right
            refine ⟨{ object := c.object.store key (threadValue key), _dataMutex := true },
              Built_update s c _ _ i _ _ hb hti (by simp [hb.1]) hb.2.1 hb.2.2.1
              (Or.inr ⟨rfl, rfl⟩) ?_ rfl (fun _ => rfl)⟩
            simp only [ThreadOk]
            refine ⟨trivial, hres, ?_⟩
            rw [find_store, if_pos rfl]
    | inSave inst pending =>
      rcases hshape with hf | ⟨c, hb⟩
      · exact absurd (hf.2.2.2 _ hmem).1 (by simp)
      · have hok := hb.2.2.2.1 _ hmem
        simp only [ThreadOk] at hok
        obtain ⟨rfl, hres, hfind⟩ := hok
        cases pending with
        | nil =>
          simp only [hb.1, List.getElem?_cons_zero, Option.some.injEq] at hstep
          subst hstep
          refine ⟨?_, ?_, ?_⟩
          · rw [← hkeys]; exact map_set_of_eq _ _ _ _ _ hti rfl
          · apply count_update s _ i _ _ hti hcount
            simp [Thread.owed, hb.1]
          · right
            refine ⟨{ object := c.object, _dataMutex := false },
              Built_update s c _ _ i _ _ hb hti (by simp [hb.1]) hb.2.1 hb.2.2.1
              (Or.inl rfl) ?_ rfl (fun _ => rfl)⟩
            simp only [ThreadOk]
            exact ⟨trivial, hres, hfind⟩
        | cons chunk rest =>
          simp only [Option.some.injEq] at hstep
          subst hstep
          refine ⟨?_, ?_, ?_⟩
          · rw [← hkeys]; exact map_set_of_eq _ _ _ _ _ hti rfl
          · apply count_update s _ i _ _ hti hcount
            simp [Thread.owed, newlines_append]
            omega
          · right
            refine ⟨c, Built_update s c c _ i _ _ hb hti hb.1 hb.2.1
              (startsWith_append _ _ _ hb.2.2.1) (Or.inl rfl) ?_ rfl (fun _ => rfl)⟩
            simp only [ThreadOk]
            exact ⟨trivial, hres, hfind⟩
    | saved inst =>
      rcases hshape with hf | ⟨c, hb⟩
      · exact absurd (hf.2.2.2 _ hmem).1 (by simp)
      · have hok := hb.2.2.2.1 _ hmem
        simp only [ThreadOk] at hok
        obtain ⟨rfl, hres, hfind⟩ := hok
        simp only [hb.1, List.getElem?_cons_zero] at hstep
        by_cases hlock : c._dataMutex = true
        · simp [hlock] at hstep
        · simp only [hlock, Bool.false_eq_true, if_false, Option.some.injEq] at hstep
          subst hstep
          have hget : (c.object.GetData key).1 = foundResult key := GetData_found _ _ hfind
          have hobj : (c.object.GetData key).2 = c.object := GetData_snd _ _
          refine ⟨?_, ?_, ?_⟩
          · rw [← hkeys]; exact map_set_of_eq _ _ _ _ _ hti rfl
          · apply count_update s _ i _ _ hti hcount
            have h3 : newlines "\n" = 1 := by decide
            simp [Thread.owed, hget, newlines_foundResult, hb.1, h3]
          · right
            refine ⟨{ object := (c.object.GetData key).2, _dataMutex := false },
              Built_update s c _ _ i _ _ hb hti (by simp [hb.1]) hb.2.1 hb.2.2.1
              (Or.inl hobj) ?_ rfl (fun _ => rfl)⟩
            simp only [ThreadOk]
            rw [hobj, hget]
            exact ⟨rfl, hfind⟩
    | printing pending =>
      rcases hshape with hf | ⟨c, hb⟩
      · exact absurd (hf.2.2.2 _ hmem).1 (by simp)
      · have hok := hb.2.2.2.1 _ hmem
        simp only [ThreadOk] at hok
        cases pending with
        | nil =>
          simp only [Option.some.injEq] at hstep
          subst hstep
          refine ⟨?_, ?_, ?_⟩
          · rw [← hkeys]; exact map_set_of_eq _ _ _ _ _ hti rfl
          · apply count_update s _ i _ _ hti hcount
            simp [Thread.owed]
          · right
            refine ⟨c, Built_update s c c _ i _ _ hb hti hb.1 hb.2.1 hb.2.2.1
              (Or.inl rfl) ?_ rfl (fun _ => rfl)⟩
            simp only [ThreadOk]
            exact hok
        | cons chunk rest =>
          simp only [Option.some.injEq] at hstep
          subst hstep
          refine ⟨?_, ?_, ?_⟩
          · rw [← hkeys]; exact map_set_of_eq _ _ _ _ _ hti rfl
          · apply count_update s _ i _ _ hti hcount
            simp [Thread.owed, newlines_append]
            omega
          · right
            refine ⟨c, Built_update s c c _ i _ _ hb hti hb.1 hb.2.1
              (startsWith_append _ _ _ hb.2.2.1) (Or.inl rfl) ?_ rfl (fun _ => rfl)⟩
            simp only [ThreadOk]
            exact hok
    | done => simp at hstep

theorem spawn_owed (keys : List Int) :
    ((spawn keys).threads.map Thread.owed).sum = 2 * (spawn keys).threads.length := by
  unfold spawn
  induction keys with
  | nil => rfl
  | cons k rest ih =>
    simp only [List.map_cons, List.sum_cons, List.length_cons] at ih ⊢
    rw [ih]
    simp only [Thread.owed]
    omega

theorem spawn_invariant (keys : List Int) : Invariant keys (spawn keys) := by
  refine ⟨?_, ?_, Or.inl ⟨rfl, rfl, rfl, ?_⟩⟩
  · simp [spawn, Function.comp_def]
  · rw [spawn_owed]
    have h0 : newlines "" = 0 := by decide
    simp [spawn, Process.initial, h0]
  · intro t ht
    simp only [spawn, List.mem_map] at ht
    obtain ⟨k, _, rfl⟩ := ht
    exact ⟨rfl, rfl⟩

theorem run_invariant (keys : List Int) (sched : List Nat) (s final : System)
    (hinv : Invariant keys s) (hrun : run s sched = some final) : Invariant keys final := by
  induction sched generalizing s with
  | nil =>
    simp only [run, Option.some.injEq] at hrun
    rw [← hrun]; exact hinv
  | cons i rest ih =>
    unfold run at hrun
    cases hstep : ThreadFunction_step s i with
    | none => simp [hstep] at hrun
    | some next =>
      simp only [hstep] at hrun
      exact ih next (step_invariant keys s next i hinv hstep) hrun

/-- Every state reached from the start of the threads satisfies the invariant. -/
theorem reachable_invariant (keys : List Int) (sched : List Nat) (final : System)
    (hrun : run (spawn keys) sched = some final) : Invariant keys final :=
  run_invariant keys sched _ final (spawn_invariant keys) hrun

theorem foundResult_eq (key : Int) :
    foundResult key = "Data for Key " ++ to_string key ++ ": Data from thread " ++ to_string key := by
  unfold foundResult threadValue
  apply String.ext
  simp only [String.data_append, List.append_assoc]
  rfl

theorem Thread.isDone_iff (t : Thread) : t.isDone = true ↔ t.pc = Pc.done := by
  unfold Thread.isDone
  cases t.pc <;> simp

/-- In a state where every thread has returned and one exists, the object is
built and holds the element of every thread. -/
theorem finished_built (keys : List Int) (s : System) (hinv : Invariant keys s)
    (hfin : finished s) (hne : keys ≠ []) :
    ∃ c, Built s c ∧ ∀ t ∈ s.threads,
      t.result = some (foundResult t.key)
        ∧ c.object._database.find t.key = some (threadValue t.key) := by
  obtain ⟨hkeys, _, hshape⟩ := hinv
  rcases hshape with hf | ⟨c, hb⟩
  · exfalso
    cases hth : s.threads with
    | nil => rw [hth] at hkeys; exact hne hkeys.symm
    | cons t rest =>
      have hmem : t ∈ s.threads := by rw [hth]; exact List.mem_cons_self _ _
      have h1 := (hf.2.2.2 t hmem).1
      have h2 := (Thread.isDone_iff t).1 (hfin t hmem)
      rw [h1] at h2
      exact absurd h2 (by simp)
  · refine ⟨c, hb, ?_⟩
    intro t ht
    have hok := hb.2.2.2.1 t ht
    have hd := (Thread.isDone_iff t).1 (hfin t ht)
    unfold ThreadOk at hok
    rw [hd] at hok
    exact hok

/-- The keys of the map of a finished state are the keys of the threads. -/
theorem finished_keys (keys : List Int) (s : System) (c : Cell) (hinv : Invariant keys s)
    (hb : Built s c)
    (hall : ∀ t ∈ s.threads, c.object._database.find t.key = some (threadValue t.key))
    (k : Int) : k ∈ c.object._database.entries.map Prod.fst ↔ k ∈ keys := by
  rw [← hinv.1]
  constructor
  · intro hk
    cases hl : lookup c.object._database.entries k with
    | none => exact absurd hk ((lookup_eq_none_iff _ _).1 hl)
    | some v =>
      obtain ⟨t, ht, htk, _⟩ := hb.2.2.2.2 k v hl
      rw [← htk]
      exact List.mem_map_of_mem _ ht
  · intro hk
    obtain ⟨t, ht, rfl⟩ := List.mem_map.1 hk
    by_contra hn
    have := (lookup_eq_none_iff _ _).2 hn
    have h2 := hall t ht
    unfold UnorderedMap.find at h2
    rw [this] at h2
    exact absurd h2 (by simp)

theorem stored_built (s : System) (c : Cell) (hb : Built s c) :
    stored s = c.object._database.entries.length := by
  unfold stored
  rw [hb.1]
  simp [UnorderedMap.size]

theorem run_no_threads (sched : List Nat) (final : System)
    (hrun : run (spawn []) sched = some final) : final = spawn [] := by
  cases sched with
  | nil => simp only [run, Option.some.injEq] at hrun; exact hrun.symm
  | cons i rest => simp [run, ThreadFunction_step, spawn] at hrun

/-! ## Executions call by call -/

theorem getElem?_set_same {α : Type} (l : List α) (i : Nat) (t t' : α) (h : l[i]? = some t) :
    (l.set i t')[i]? = some t' := by
  induction l generalizing i with
  | nil => simp at h
  | cons x rest ih =>
    cases i with
    | zero => simp
    | succ j =>
      have hj : rest[j]? = some t := by simpa using h
      simpa using ih j hj

theorem step_start (s : System) (i : Nat) (key : Int) (result : Option String)
    (hti : s.threads[i]? = some { key := key, pc := Pc.start, result := result }) :
    ThreadFunction_step s i = some {
      proc := (GetInstance s.proc).2,
      threads := s.threads.set i
        { key := key, pc := Pc.acquired (GetInstance s.proc).1, result := result } } := by
  unfold ThreadFunction_step
  simp only [hti]

theorem step_acquired (s : System) (i : Nat) (key : Int) (result : Option String) (c : Cell)
    (hti : s.threads[i]? = some { key := key, pc := Pc.acquired 0, result := result })
    (hheap : s.proc.heap = [c]) (hlock : c._dataMutex = false) :
    ThreadFunction_step s i = some {
      proc := { s.proc with
        heap := [{ object := c.object.store key (threadValue key), _dataMutex := true }] },
      threads := s.threads.set i
        { key := key, pc := Pc.inSave 0 (SaveData_output key (threadValue key)),
          result := result } } := by
  unfold ThreadFunction_step
  simp [hti, hheap, hlock]

theorem step_inSave_cons (s : System) (i : Nat) (key : Int) (result : Option String)
    (inst : Nat) (chunk : String) (rest : List String)
    (hti : s.threads[i]? = some { key := key, pc := Pc.inSave inst (chunk :: rest),
                                   result := result }) :
    ThreadFunction_step s i = some {
      proc := { s.proc with cout := s.proc.cout ++ chunk },
      threads := s.threads.set i { key := key, pc := Pc.inSave inst rest, result := result } } := by
  unfold ThreadFunction_step
  simp only [hti]

theorem step_inSave_nil (s : System) (i : Nat) (key : Int) (result : Option String) (c : Cell)
    (hti : s.threads[i]? = some { key := key, pc := Pc.inSave 0 [], result := result })
    (hheap : s.proc.heap = [c]) :
    ThreadFunction_step s i = some {
      proc := { s.proc with heap := [{ object := c.object, _dataMutex := false }] },
      threads := s.threads.set i { key := key, pc := Pc.saved 0, result := result } } := by
  unfold ThreadFunction_step
  simp [hti, hheap]

theorem step_saved (s : System) (i : Nat) (key : Int) (result : Option String) (c : Cell)
    (hti : s.threads[i]? = some { key := key, pc := Pc.saved 0, result := result })
    (hheap : s.proc.heap = [c]) (hlock : c._dataMutex = false) :
    ThreadFunction_step s i = some {
      proc := { s.proc with
        heap := [{ object := (c.object.GetData key).2, _dataMutex := false }] },
      threads := s.threads.set i
        { key := key, pc := Pc.printing [(c.object.GetData key).1, "\n"],
          result := some (c.object.GetData key).1 } } := by
  unfold ThreadFunction_step
  simp [hti, hheap, hlock]

theorem step_printing_cons (s : System) (i : Nat) (key : Int) (result : Option String)
    (chunk : String) (rest : List String)
    (hti : s.threads[i]? = some { key := key, pc := Pc.printing (chunk :: rest),
                                   result := result }) :
    ThreadFunction_step s i = some {
      proc := { s.proc with cout := s.proc.cout ++ chunk },
      threads := s.threads.set i { key := key, pc := Pc.printing rest, result := result } } := by
  unfold ThreadFunction_step
  simp only [hti]

theorem step_printing_nil (s : System) (i : Nat) (key : Int) (result : Option String)
    (hti : s.threads[i]? = some { key := key, pc := Pc.printing [], result := result }) :
    ThreadFunction_step s i = some { s with
      threads := s.threads.set i { key := key, pc := Pc.done, result := result } } := by
  unfold ThreadFunction_step
  simp only [hti]

theorem run_append (s : System) (a b : List Nat) :
    run s (a ++ b) = (run s a).bind (fun m => run m b) := by
  induction a generalizing s with
  | nil => rfl
  | cons i rest ih =>
    simp only [List.cons_append, run]
    cases ThreadFunction_step s i with
    | none => rfl
    | some next => exact ih next

theorem run_single (s : System) (i : Nat) : run s [i] = ThreadFunction_step s i := by
  unfold run
  cases ThreadFunction_step s i with
  | none => rfl
  | some next => rfl

theorem set_same {α : Type} (l : List α) (i : Nat) (t : α) (h : l[i]? = some t) :
    l.set i t = l := by
  induction l generalizing i with
  | nil => rfl
  | cons x rest ih =>
    cases i with
    | zero =>
      have hx : x = t := by simpa using h
      simp [hx]
    | succ j =>
      have hj : rest[j]? = some t := by simpa using h
      simp [ih j hj]

theorem run_inSave_chunks (pending : List String) (s : System) (i : Nat) (key : Int)
    (result : Option String) (inst : Nat)
    (hti : s.threads[i]? = some { key := key, pc := Pc.inSave inst pending, result := result }) :
    run s (List.replicate pending.length i) = some {
      proc := { s.proc with cout := insertAll s.proc.cout pending },
      threads := s.threads.set i { key := key, pc := Pc.inSave inst [], result := result } } := by
  induction pending generalizing s with
  | nil =>
    rw [set_same _ _ _ hti]
    rfl
  | cons chunk rest ih =>
    simp only [List.length_cons, List.replicate_succ, run,
      step_inSave_cons s i key result inst chunk rest hti]
    rw [ih _ (getElem?_set_same _ _ _ _ hti)]
    simp only [List.set_set]
    rfl

theorem run_printing_chunks (pending : List String) (s : System) (i : Nat) (key : Int)
    (result : Option String)
    (hti : s.threads[i]? = some { key := key, pc := Pc.printing pending, result := result }) :
    run s (List.replicate pending.length i) = some {
      proc := { s.proc with cout := insertAll s.proc.cout pending },
      threads := s.threads.set i { key := key, pc := Pc.printing [], result := result } } := by
  induction pending generalizing s with
  | nil =>
    rw [set_same _ _ _ hti]
    rfl
  | cons chunk rest ih =>
    simp only [List.length_cons, List.replicate_succ, run,
      step_printing_cons s i key result chunk rest hti]
    rw [ih _ (getElem?_set_same _ _ _ _ hti)]
    simp only [List.set_set]
    rfl

/-- The seven steps of one `SaveData` call, run in a row, do what the method
`DatabaseConnection.SaveData` does, and leave the mutex free. -/
theorem run_SaveData (s : System) (i : Nat) (key : Int) (result : Option String) (c : Cell)
    (hti : s.threads[i]? = some { key := key, pc := Pc.acquired 0, result := result })
    (hheap : s.proc.heap = [c]) (hlock : c._dataMutex = false) :
    run s (List.replicate 7 i) = some {
      proc := { s.proc with
        cout := (c.object.SaveData key (threadValue key) s.proc.cout).2,
        heap := [{ object := (c.object.SaveData key (threadValue key) s.proc.cout).1,
                   _dataMutex := false }] },
      threads := s.threads.set i { key := key, pc := Pc.saved 0, result := result } } := by
  have h7 : List.replicate 7 i
      = [i] ++ (List.replicate (SaveData_output key (threadValue key)).length i ++ [i]) := rfl
  rw [h7, run_append, run_single, step_acquired s i key result c hti hheap hlock,
    Option.some_bind, run_append,
    run_inSave_chunks _ _ i key result 0 (getElem?_set_same _ _ _ _ hti),
    Option.some_bind, run_single,
    step_inSave_nil _ i key result
      { object := c.object.store key (threadValue key), _dataMutex := true }
      (getElem?_set_same _ _ _ _ (getElem?_set_same _ _ _ _ hti)) rfl]
  simp only [List.set_set]
  rfl

/-- The three steps that end `ThreadFunction`, run in a row, write the result
and the newline character. -/
theorem run_output (s : System) (i : Nat) (key : Int) (result : Option String) (r : String)
    (hti : s.threads[i]? = some { key := key, pc := Pc.printing [r, "\n"], result := result }) :
    run s (List.replicate 3 i) = some {
      proc := { s.proc with cout := s.proc.cout ++ r ++ "\n" },
      threads := s.threads.set i { key := key, pc := Pc.done, result := result } } := by
  have h3 : List.replicate 3 i = List.replicate [r, "\n"].length i ++ [i] := rfl
  rw [h3, run_append, run_printing_chunks _ s i key result hti, Option.some_bind, run_single,
    step_printing_nil _ i key result (getElem?_set_same _ _ _ _ hti)]
  simp only [List.set_set]
  rfl

theorem flatMap_eq_nil_of {α β : Type} (f : α → List β) (l : List α)
    (h : ∀ x ∈ l, f x = []) : l.flatMap f = [] := by
  induction l with
  | nil => rfl
  | cons x rest ih =>
    rw [List.flatMap_cons, h x (List.mem_cons_self _ _),
      ih (fun y hy => h y (List.mem_cons_of_mem _ hy))]
    rfl

theorem flatMap_set_same {α β : Type} (f : α → List β) (l : List α) (i : Nat) (t t' : α)
    (h : l[i]? = some t) (hf : f t' = f t) : (l.set i t').flatMap f = l.flatMap f := by
  unfold List.flatMap
  rw [map_set_of_eq f l i t t' h hf]

theorem flatMap_set_append {α β : Type} (f : α → List β) (l : List α) (i : Nat) (t t' : α)
    (x : β) (h : l[i]? = some t) (hf : f t' = f t ++ [x]) :
    List.Perm ((l.set i t').flatMap f) (x :: l.flatMap f) := by
  induction l generalizing i with
  | nil => simp at h
  | cons y rest ih =>
    cases i with
    | zero =>
      have hy : y = t := by simpa using h
      subst hy
      rw [List.set_cons_zero, List.flatMap_cons, List.flatMap_cons, hf, List.append_assoc]
      exact List.perm_middle
    | succ j =>
      have hj : rest[j]? = some t := by simpa using h
      rw [List.set_cons_succ, List.flatMap_cons, List.flatMap_cons]
      exact (List.Perm.append_left (f y) (ih j hj)).trans List.perm_middle

theorem insertAll_append (cout : String) (a b : List String) :
    insertAll cout (a ++ b) = insertAll (insertAll cout a) b := by
  unfold insertAll
  rw [List.foldl_append]

theorem SaveData_cout (db : DatabaseConnection) (key : Int) (cout : String) :
    (db.SaveData key (threadValue key) cout).2 = cout ++ saveLine key := by
  show insertAll cout (SaveData_output key (threadValue key)) = _
  simp [insertAll, SaveData_output, saveLine, String.append_assoc]

theorem call_invariant (keys : List Int) (s next : System) (i : Nat) (t : Thread)
    (hinv : Invariant keys s) (hcall : CallInvariant s) (hti : s.threads[i]? = some t)
    (hne : t.callSteps ≠ 0)
    (hrun : run s (List.replicate t.callSteps i) = some next) : CallInvariant next := by
  have hmem : t ∈ s.threads := mem_of_getElem?_eq _ _ _ hti
  obtain ⟨hat, hlock, body, hcout, hperm⟩ := hcall
  obtain ⟨key, pc, result⟩ := t
  cases pc with
  | start =>
    have hr : run s (List.replicate 1 i) = some next := hrun
    have h1 : List.replicate 1 i = [i] := rfl
    rw [h1, run_single, step_start s i key result hti] at hr
    have hnext := (Option.some.inj hr).symm
    subst hnext
    rcases hinv.2.2 with hf | ⟨c, hb⟩
    · have hg : GetInstance s.proc
          = (0, { cout := "" ++ creationNotice,
                  heap := [{ object := DatabaseConnection.new, _dataMutex := false }],
                  _instance := some 0 }) := by
        simp [GetInstance, Process.construct, hf.1, hf.2.1, hf.2.2.1]
      rw [hg]
      refine ⟨?_, ?_, [], ?_, ?_⟩
      · exact forall_mem_set _ _ _ _ hat trivial
      · intro c hc
        rw [List.mem_singleton.1 hc]
      · rfl
      · show List.Perm [] ((s.threads.set i
            { key := key, pc := Pc.acquired 0, result := result }).flatMap Thread.written)
        rw [flatMap_eq_nil_of]
        refine forall_mem_set (fun x => Thread.written x = []) _ _ _ ?_ ?_
        · intro x hx
          simp only [Thread.written, (hf.2.2.2 x hx).1]
        · rfl
    · rw [GetInstance_of_constructed _ _ hb.2.1]
      refine ⟨forall_mem_set _ _ _ _ hat trivial, hlock, body, hcout, ?_⟩
      show List.Perm body ((s.threads.set i
          { key := key, pc := Pc.acquired 0, result := result }).flatMap Thread.written)
      rw [flatMap_set_same Thread.written _ i _
        { key := key, pc := Pc.acquired 0, result := result } hti rfl]
      exact hperm
  | acquired inst =>
    rcases hinv.2.2 with hf | ⟨c, hb⟩
    · exact absurd (hf.2.2.2 _ hmem).1 (by simp)
    · have hok := hb.2.2.2.1 _ hmem
      simp only [ThreadOk] at hok
      obtain ⟨rfl, _⟩ := hok
      have hfree : c._dataMutex = false := hlock c (by rw [hb.1]; exact List.mem_singleton.2 rfl)
      have hr : run s (List.replicate 7 i) = some next := hrun
      rw [run_SaveData s i key result c hti hb.1 hfree] at hr
      have hnext := (Option.some.inj hr).symm
      subst hnext
      refine ⟨forall_mem_set _ _ _ _ hat trivial, ?_, body ++ [saveLine key], ?_, ?_⟩
      · intro x hx
        rw [List.mem_singleton.1 hx]
      · show (c.object.SaveData key (threadValue key) s.proc.cout).2 = _
        rw [SaveData_cout, insertAll_append, hcout, hb.1]
        rfl
      · exact (List.perm_append_singleton _ _).trans
          ((List.Perm.cons _ hperm).trans
            (flatMap_set_append Thread.written _ i _
              { key := key, pc := Pc.saved 0, result := result } (saveLine key) hti rfl).symm)
  | inSave inst pending => exact absurd rfl hne
  | saved inst =>
    rcases hinv.2.2 with hf | ⟨c, hb⟩
    · exact absurd (hf.2.2.2 _ hmem).1 (by simp)
    · have hok := hb.2.2.2.1 _ hmem
      simp only [ThreadOk] at hok
      obtain ⟨rfl, _, hfind⟩ := hok
      have hfree : c._dataMutex = false := hlock c (by rw [hb.1]; exact List.mem_singleton.2 rfl)
      have hr : run s (List.replicate 1 i) = some next := hrun
      have h1 : List.replicate 1 i = [i] := rfl
      rw [h1, run_single, step_saved s i key result c hti hb.1 hfree] at hr
      have hnext := (Option.some.inj hr).symm
      subst hnext
      refine ⟨?_, ?_, body, ?_, ?_⟩
      · apply forall_mem_set _ _ _ _ hat
        show [(c.object.GetData key).1, "\n"] = [foundResult key, "\n"]
        rw [GetData_found _ _ hfind]
      · intro x hx
        rw [List.mem_singleton.1 hx]
      · show s.proc.cout = _
        rw [hcout, hb.1]
        rfl
      · show List.Perm body ((s.threads.set i
            { key := key, pc := Pc.printing [(c.object.GetData key).1, "\n"],
              result := some (c.object.GetData key).1 }).flatMap Thread.written)
        rw [flatMap_set_same Thread.written _ i _
          { key := key, pc := Pc.printing [(c.object.GetData key).1, "\n"],
            result := some (c.object.GetData key).1 } hti rfl]
        exact hperm
  | printing pending =>
    have hp : pending = [foundResult key, "\n"] := hat _ hmem
    subst hp
    have hr : run s (List.replicate 3 i) = some next := hrun
    rw [run_output s i key result (foundResult key) hti] at hr
    have hnext := (Option.some.inj hr).symm
    subst hnext
    refine ⟨forall_mem_set _ _ _ _ hat trivial, hlock, body ++ [foundLine key], ?_, ?_⟩
    · show s.proc.cout ++ foundResult key ++ "\n" = _
      rw [insertAll_append, ← hcout, String.append_assoc]
      rfl
    · exact (List.perm_append_singleton _ _).trans
        ((List.Perm.cons _ hperm).trans
          (flatMap_set_append Thread.written _ i _
            { key := key, pc := Pc.done, result := result } (foundLine key) hti rfl).symm)
  | done => exact absurd rfl hne

theorem runCalls_invariant (keys : List Int) (calls : List Nat) (s final : System)
    (hinv : Invariant keys s) (hcall : CallInvariant s)
    (hrun : runCalls s calls = some final) :
    Invariant keys final ∧ CallInvariant final ∧ ∃ sched, run s sched = some final := by
  induction calls generalizing s with
  | nil =>
    simp only [runCalls, Option.some.injEq] at hrun
    subst hrun
    exact ⟨hinv, hcall, [], rfl⟩
  | cons i rest ih =>
    unfold runCalls at hrun
    cases hti : s.threads[i]? with
    | none => simp [hti] at hrun
    | some t =>
      simp only [hti] at hrun
      by_cases h0 : t.callSteps = 0
      · simp [h0] at hrun
      · simp only [h0, if_false] at hrun
        cases hr : run s (List.replicate t.callSteps i) with
        | none => simp [hr] at hrun
        | some next =>
          simp only [hr] at hrun
          obtain ⟨h1, h2, sched, h3⟩ := ih next (run_invariant keys _ s next hinv hr)
            (call_invariant keys s next i t hinv hcall hti h0 hr) hrun
          refine ⟨h1, h2, List.replicate t.callSteps i ++ sched, ?_⟩
          rw [run_append, hr, Option.some_bind, h3]

theorem spawn_callInvariant (keys : List Int) : CallInvariant (spawn keys) := by
  refine ⟨?_, ?_, [], rfl, ?_⟩
  · intro t ht
    simp only [spawn, List.mem_map] at ht
    obtain ⟨k, _, rfl⟩ := ht
    trivial
  · intro c hc
    exact absurd hc (List.not_mem_nil c)
  · rw [flatMap_eq_nil_of]
    intro t ht
    simp only [spawn, List.mem_map] at ht
    obtain ⟨k, _, rfl⟩ := ht
    rfl

/-- An execution call by call is an execution step by step. -/
theorem runCalls_is_run (keys : List Int) (calls : List Nat) (final : System)
    (hrun : runCalls (spawn keys) calls = some final) :
    ∃ sched, run (spawn keys) sched = some final :=
  (runCalls_invariant keys calls _ final (spawn_invariant keys) (spawn_callInvariant keys)
    hrun).2.2

/-! ## Finished executions -/

theorem owed_of_finished (l : List Thread) (h : ∀ t ∈ l, t.isDone = true) :
    (l.map Thread.owed).sum = 0 := by
  induction l with
  | nil => rfl
  | cons t rest ih =>
    have ht := (Thread.isDone_iff t).1 (h t (List.mem_cons_self _ _))
    rw [List.map_cons, List.sum_cons, ih (fun x hx => h x (List.mem_cons_of_mem _ hx))]
    simp only [Thread.owed, ht]

theorem written_of_finished (l : List Thread) (h : ∀ t ∈ l, t.isDone = true) :
    l.flatMap Thread.written
      = (l.map Thread.key).flatMap (fun k => [saveLine k, foundLine k]) := by
  induction l with
  | nil => rfl
  | cons t rest ih =>
    have ht := (Thread.isDone_iff t).1 (h t (List.mem_cons_self _ _))
    rw [List.flatMap_cons, List.map_cons, List.flatMap_cons,
      ih (fun x hx => h x (List.mem_cons_of_mem _ hx))]
    simp only [Thread.written, ht]

theorem flatMap_pair_perm {α β : Type} (a b : α → β) (l : List α) :
    List.Perm (l.flatMap (fun k => [a k, b k])) (l.map a ++ l.map b) := by
  induction l with
  | nil => exact List.Perm.nil
  | cons k rest ih =>
    rw [List.flatMap_cons, List.map_cons, List.map_cons]
    show List.Perm (a k :: b k :: rest.flatMap (fun k => [a k, b k]))
      (a k :: (rest.map a ++ b k :: rest.map b))
    exact List.Perm.cons _ ((List.Perm.cons _ ih).trans List.perm_middle.symm)

/-- The output of a finished execution, at the level of single operands. -/
theorem finished_output (keys : List Int) (sched : List Nat) (final : System)
    (hne : keys ≠ []) (hrun : run (spawn keys) sched = some final) (hfin : finished final) :
    newlines final.proc.cout = 2 * keys.length + 1
      ∧ startsWith final.proc.cout creationNotice
      ∧ ∀ t ∈ final.threads, t.result = some (foundResult t.key) := by
  have hinv := reachable_invariant keys sched final hrun
  obtain ⟨c, hb, hall⟩ := finished_built keys final hinv hfin hne
  refine ⟨?_, hb.2.2.1, fun t ht => (hall t ht).1⟩
  have hcount := hinv.2.1
  rw [owed_of_finished _ hfin, hb.1, ← List.length_map final.threads Thread.key, hinv.1] at hcount
  simpa using hcount

/-- The output of a finished execution in which every call ran without a step
of another thread in between. -/
theorem finished_output_calls (keys : List Int) (calls : List Nat) (final : System)
    (hne : keys ≠ []) (hrun : runCalls (spawn keys) calls = some final)
    (hfin : finished final) :
    ∃ body, final.proc.cout = insertAll creationNotice body
      ∧ List.Perm body (keys.map saveLine ++ keys.map foundLine) := by
  obtain ⟨hinv, hcall, _⟩ :=
    runCalls_invariant keys calls _ final (spawn_invariant keys) (spawn_callInvariant keys) hrun
  obtain ⟨c, hb, _⟩ := finished_built keys final hinv hfin hne
  obtain ⟨_, _, body, hcout, hperm⟩ := hcall
  refine ⟨body, ?_, ?_⟩
  · rw [hcout, hb.1]
    rfl
  · rw [written_of_finished _ hfin, hinv.1] at hperm
    exact hperm.trans (flatMap_pair_perm saveLine foundLine keys)

/-! ## Progress: no deadlock, and a bound on the number of steps -/

theorem step_mutexInvariant (keys : List Int) (s next : System) (i : Nat)
    (hinv : Invariant keys s) (hm : MutexInvariant s) (hstep : ThreadFunction_step s i = some next) :
    MutexInvariant next := by
  cases hti : s.threads[i]? with
  | none => simp [ThreadFunction_step, hti] at hstep
  | some t =>
    have hmem : t ∈ s.threads := mem_of_getElem?_eq _ _ _ hti
    obtain ⟨key, pc, result⟩ := t
    have hstart : pc ≠ Pc.start → ∃ c, Built s c := by
      intro hpc
      rcases hinv.2.2 with hf | hb
      · exact absurd (hf.2.2.2 _ hmem).1 hpc
      · exact hb
    cases pc with
    | start =>
      rw [step_start s i key result hti] at hstep
      have hnext := (Option.some.inj hstep).symm
      subst hnext
      rcases hinv.2.2 with hf | ⟨c, hb⟩
      · intro c hc hlock
        have hc' : c ∈ [({ object := DatabaseConnection.new, _dataMutex := false } : Cell)] := by
          simpa [GetInstance, Process.construct, hf.1, hf.2.1] using hc
        rw [List.mem_singleton.1 hc'] at hlock
        exact absurd hlock (by simp)
      · intro c' hc hlock
        rw [GetInstance_of_constructed _ _ hb.2.1] at hc
        exact exists_mem_set (fun x => x.holdsMutex = true) _ _ _ _ hti
          (fun h => absurd h (by simp [Thread.holdsMutex])) (hm c' hc hlock)
    | acquired inst =>
      obtain ⟨c, hb⟩ := hstart (by simp)
      have hok := hb.2.2.2.1 _ hmem
      simp only [ThreadOk] at hok
      obtain ⟨rfl, _⟩ := hok
      by_cases hlock : c._dataMutex = true
      · simp [ThreadFunction_step, hti, hb.1, hlock] at hstep
      · rw [step_acquired s i key result c hti hb.1 (by simpa using hlock)] at hstep
        have hnext := (Option.some.inj hstep).symm
        subst hnext
        intro _ _ _
        exact ⟨_, mem_set_self _ _ _ _ hti, rfl⟩
    | inSave inst pending =>
      obtain ⟨c, hb⟩ := hstart (by simp)
      have hok := hb.2.2.2.1 _ hmem
      simp only [ThreadOk] at hok
      obtain ⟨rfl, _⟩ := hok
      cases pending with
      | nil =>
        rw [step_inSave_nil s i key result c hti hb.1] at hstep
        have hnext := (Option.some.inj hstep).symm
        subst hnext
        intro c' hc hlock
        rw [List.mem_singleton.1 hc] at hlock
        exact absurd hlock (by simp)
      | cons chunk rest =>
        rw [step_inSave_cons s i key result 0 chunk rest hti] at hstep
        have hnext := (Option.some.inj hstep).symm
        subst hnext
        intro _ _ _
        exact ⟨_, mem_set_self _ _ _ _ hti, rfl⟩
    | saved inst =>
      obtain ⟨c, hb⟩ := hstart (by simp)
      have hok := hb.2.2.2.1 _ hmem
      simp only [ThreadOk] at hok
      obtain ⟨rfl, _⟩ := hok
      by_cases hlock : c._dataMutex = true
      · simp [ThreadFunction_step, hti, hb.1, hlock] at hstep
      · rw [step_saved s i key result c hti hb.1 (by simpa using hlock)] at hstep
        have hnext := (Option.some.inj hstep).symm
        subst hnext
        intro c' hc hlock'
        rw [List.mem_singleton.1 hc] at hlock'
        exact absurd hlock' (by simp)
    | printing pending =>
      cases pending with
      | nil =>
        rw [step_printing_nil s i key result hti] at hstep
        have hnext := (Option.some.inj hstep).symm
        subst hnext
        intro c' hc hlock
        exact exists_mem_set (fun x => x.holdsMutex = true) _ _ _ _ hti
          (fun h => absurd h (by simp [Thread.holdsMutex])) (hm c' hc hlock)
      | cons chunk rest =>
        rw [step_printing_cons s i key result chunk rest hti] at hstep
        have hnext := (Option.some.inj hstep).symm
        subst hnext
        intro c' hc hlock
        exact exists_mem_set (fun x => x.holdsMutex = true) _ _ _ _ hti
          (fun h => absurd h (by simp [Thread.holdsMutex])) (hm c' hc hlock)
    | done => simp [ThreadFunction_step, hti] at hstep

theorem run_mutexInvariant (keys : List Int) (sched : List Nat) (s final : System)
    (hinv : Invariant keys s) (hm : MutexInvariant s) (hrun : run s sched = some final) :
    MutexInvariant final := by
  induction sched generalizing s with
  | nil =>
    simp only [run, Option.some.injEq] at hrun
    rw [← hrun]; exact hm
  | cons i rest ih =>
    unfold run at hrun
    cases hstep : ThreadFunction_step s i with
    | none => simp [hstep] at hrun
    | some next =>
      simp only [hstep] at hrun
      exact ih next (step_invariant keys s next i hinv hstep)
        (step_mutexInvariant keys s next i hinv hm hstep) hrun

/-- A thread that has not returned and does not wait for the mutex can move. -/
theorem step_isSome_of_free (keys : List Int) (s : System) (i : Nat) (t : Thread)
    (hinv : Invariant keys s) (hti : s.threads[i]? = some t) (hnd : t.isDone = false)
    (hfree : t.holdsMutex = true ∨ ∀ c ∈ s.proc.heap, c._dataMutex = false) :
    ∃ next, ThreadFunction_step s i = some next := by
  have hmem : t ∈ s.threads := mem_of_getElem?_eq _ _ _ hti
  obtain ⟨key, pc, result⟩ := t
  have hbuilt : pc ≠ Pc.start → ∃ c, Built s c := by
    intro hpc
    rcases hinv.2.2 with hf | hb
    · exact absurd (hf.2.2.2 _ hmem).1 hpc
    · exact hb
  cases pc with
  | start => exact ⟨_, step_start s i key result hti⟩
  | acquired inst =>
    obtain ⟨c, hb⟩ := hbuilt (by simp)
    have hok := hb.2.2.2.1 _ hmem
    simp only [ThreadOk] at hok
    obtain ⟨rfl, _⟩ := hok
    rcases hfree with h | h
    · exact absurd h (by simp [Thread.holdsMutex])
    · exact ⟨_, step_acquired s i key result c hti hb.1
        (h c (by rw [hb.1]; exact List.mem_singleton.2 rfl))⟩
  | inSave inst pending =>
    obtain ⟨c, hb⟩ := hbuilt (by simp)
    have hok := hb.2.2.2.1 _ hmem
    simp only [ThreadOk] at hok
    obtain ⟨rfl, _⟩ := hok
    cases pending with
    | nil => exact ⟨_, step_inSave_nil s i key result c hti hb.1⟩
    | cons chunk rest => exact ⟨_, step_inSave_cons s i key result 0 chunk rest hti⟩
  | saved inst =>
    obtain ⟨c, hb⟩ := hbuilt (by simp)
    have hok := hb.2.2.2.1 _ hmem
    simp only [ThreadOk] at hok
    obtain ⟨rfl, _⟩ := hok
    rcases hfree with h | h
    · exact absurd h (by simp [Thread.holdsMutex])
    · exact ⟨_, step_saved s i key result c hti hb.1
        (h c (by rw [hb.1]; exact List.mem_singleton.2 rfl))⟩
  | printing pending =>
    cases pending with
    | nil => exact ⟨_, step_printing_nil s i key result hti⟩
    | cons chunk rest => exact ⟨_, step_printing_cons s i key result chunk rest hti⟩
  | done => exact absurd hnd (by simp [Thread.isDone])

/-- No deadlock: in every state reached from the start of the threads in which
a thread has not returned, some thread can make a step. -/
theorem no_deadlock (keys : List Int) (sched : List Nat) (s : System)
    (hrun : run (spawn keys) sched = some s) (hnot : ¬ finished s) :
    ∃ i next, ThreadFunction_step s i = some next := by
  have hinv := reachable_invariant keys sched s hrun
  have hm : MutexInvariant s :=
    run_mutexInvariant keys sched _ s (spawn_invariant keys)
      (fun c hc => absurd hc (List.not_mem_nil c)) hrun
  by_cases hheld : ∃ c ∈ s.proc.heap, c._dataMutex = true
  · obtain ⟨c, hc, hlock⟩ := hheld
    obtain ⟨t, ht, hholds⟩ := hm c hc hlock
    obtain ⟨i, hti⟩ := List.mem_iff_getElem?.1 ht
    have hnd : t.isDone = false := by
      unfold Thread.holdsMutex at hholds
      unfold Thread.isDone
      cases hpc : t.pc <;> simp_all
    obtain ⟨next, hnext⟩ := step_isSome_of_free keys s i t hinv hti hnd (Or.inl hholds)
    exact ⟨i, next, hnext⟩
  · have hfree : ∀ c ∈ s.proc.heap, c._dataMutex = false := by
      intro c hc
      by_contra h
      exact hheld ⟨c, hc, by simpa using h⟩
    unfold finished at hnot
    push_neg at hnot
    obtain ⟨t, ht, hnd⟩ := hnot
    obtain ⟨i, hti⟩ := List.mem_iff_getElem?.1 ht
    obtain ⟨next, hnext⟩ := step_isSome_of_free keys s i t hinv hti (by simpa using hnd)
      (Or.inr hfree)
    exact ⟨i, next, hnext⟩

theorem step_remaining (s next : System) (i : Nat) (hstep : ThreadFunction_step s i = some next) :
    (next.threads.map Thread.remaining).sum + 1 = (s.threads.map Thread.remaining).sum := by
  unfold ThreadFunction_step at hstep
  cases hti : s.threads[i]? with
  | none => simp [hti] at hstep
  | some t =>
    simp only [hti] at hstep
    have key : ∀ t' : Thread, t'.remaining + 1 = t.remaining →
        ((s.threads.set i t').map Thread.remaining).sum + 1
          = (s.threads.map Thread.remaining).sum := by
      intro t' h
      have := sum_map_set Thread.remaining s.threads i t t' hti
      omega
    obtain ⟨k, pc, result⟩ := t
    cases pc with
    | start =>
      simp only [Option.some.injEq] at hstep
      subst hstep
      exact key _ rfl
    | acquired inst =>
      cases hc : s.proc.heap[inst]? with
      | none => simp [hc] at hstep
      | some c =>
        simp only [hc] at hstep
        by_cases hlock : c._dataMutex = true
        · simp [hlock] at hstep
        · simp only [hlock, Bool.false_eq_true, if_false, Option.some.injEq] at hstep
          subst hstep
          exact key _ rfl
    | inSave inst pending =>
      cases pending with
      | nil =>
        cases hc : s.proc.heap[inst]? with
        | none => simp [hc] at hstep
        | some c =>
          simp only [hc, Option.some.injEq] at hstep
          subst hstep
          exact key _ rfl
      | cons chunk rest =>
        simp only [Option.some.injEq] at hstep
        subst hstep
        exact key _ rfl
    | saved inst =>
      cases hc : s.proc.heap[inst]? with
      | none => simp [hc] at hstep
      | some c =>
        simp only [hc] at hstep
        by_cases hlock : c._dataMutex = true
        · simp [hlock] at hstep
        · simp only [hlock, Bool.false_eq_true, if_false, Option.some.injEq] at hstep
          subst hstep
          exact key _ rfl
    | printing pending =>
      cases pending with
      | nil =>
        simp only [Option.some.injEq] at hstep
        subst hstep
        exact key _ rfl
      | cons chunk rest =>
        simp only [Option.some.injEq] at hstep
        subst hstep
        exact key _ rfl
    | done => simp at hstep

theorem run_remaining (sched : List Nat) (s final : System) (hrun : run s sched = some final) :
    (final.threads.map Thread.remaining).sum + sched.length
      = (s.threads.map Thread.remaining).sum := by
  induction sched generalizing s with
  | nil =>
    simp only [run, Option.some.injEq] at hrun
    rw [hrun]; rfl
  | cons i rest ih =>
    unfold run at hrun
    cases hstep : ThreadFunction_step s i with
    | none => simp [hstep] at hrun
    | some next =>
      simp only [hstep] at hrun
      have h1 := ih next hrun
      have h2 := step_remaining s next i hstep
      rw [List.length_cons]
      omega

theorem spawn_remaining (keys : List Int) :
    ((spawn keys).threads.map Thread.remaining).sum = 12 * keys.length := by
  unfold spawn
  induction keys with
  | nil => rfl
  | cons k rest ih =>
    simp only [List.map_cons, List.sum_cons, List.length_cons] at ih ⊢
    rw [ih]
    simp only [Thread.remaining]
    omega

/-- Termination: an execution of `n` threads has at most `12 * n` steps, and
exactly that many when all threads have returned. -/
theorem run_length (keys : List Int) (sched : List Nat) (final : System)
    (hrun : run (spawn keys) sched = some final) :
    sched.length ≤ 12 * keys.length
      ∧ (finished final → sched.length = 12 * keys.length) := by
  have h := run_remaining sched _ final hrun
  rw [spawn_remaining] at h
  refine ⟨by omega, ?_⟩
  intro hfin
  have hzero : (final.threads.map Thread.remaining).sum = 0 := by
    have : ∀ l : List Thread, (∀ t ∈ l, t.isDone = true) →
        (l.map Thread.remaining).sum = 0 := by
      intro l hl
      induction l with
      | nil => rfl
      | cons t rest ih =>
        have ht := (Thread.isDone_iff t).1 (hl t (List.mem_cons_self _ _))
        rw [List.map_cons, List.sum_cons, ih (fun x hx => hl x (List.mem_cons_of_mem _ hx))]
        simp only [Thread.remaining, ht]
    exact this _ hfin
  omega

/-- Every execution can be continued until all threads have returned. -/
theorem can_finish (keys : List Int) (sched : List Nat) (s : System)
    (hrun : run (spawn keys) sched = some s) :
    ∃ more final, run s more = some final ∧ finished final := by
  generalize hn : (s.threads.map Thread.remaining).sum = n
  induction n using Nat.strong_induction_on generalizing sched s with
  | _ n ih =>
    by_cases hfin : finished s
    · exact ⟨[], s, rfl, hfin⟩
    · obtain ⟨i, next, hstep⟩ := no_deadlock keys sched s hrun hfin
      have hlt := step_remaining s next i hstep
      have hrun' : run (spawn keys) (sched ++ [i]) = some next := by
        rw [run_append, hrun, Option.some_bind, run_single, hstep]
      obtain ⟨more, final, hmore, hdone⟩ :=
        ih ((next.threads.map Thread.remaining).sum) (by omega) (sched ++ [i]) next hrun' rfl
      refine ⟨i :: more, final, ?_, hdone⟩
      show run s ([i] ++ more) = some final
      rw [run_append, run_single, hstep, Option.some_bind, hmore]

/-! ## Further facts used by the claims -/

theorem filter_key_of_lookup (l : List (Int × String)) (k : Int) (v : String)
    (hn : (l.map Prod.fst).Nodup) (hl : lookup l k = some v) :
    l.filter (fun e => decide (e.1 = k)) = [(k, v)] := by
  induction l with
  | nil => simp [lookup] at hl
  | cons e rest ih =>
    obtain ⟨k0, v0⟩ := e
    rw [List.map_cons, List.nodup_cons] at hn
    by_cases h0 : k0 = k
    · subst h0
      have hv : v0 = v := by simpa [lookup] using hl
      have hrest : rest.filter (fun e => decide (e.1 = k0)) = [] := by
        rw [List.filter_eq_nil_iff]
        intro e he hk
        have hk' : e.1 = k0 := by simpa using hk
        have hm : e.1 ∈ rest.map Prod.fst := List.mem_map_of_mem Prod.fst he
        rw [hk'] at hm
        exact hn.1 hm
      simp [List.filter_cons, hrest, hv]
    · have hl' : lookup rest k = some v := by simpa [lookup, h0] using hl
      simp [List.filter_cons, h0, ih hn.2 hl']

theorem GetInstance_calls_of_constructed (callers : List Nat) (p : Process) (a : Nat)
    (h : p._instance = some a) :
    (GetInstance_calls callers p).2 = p
      ∧ (GetInstance_calls callers p).1 = callers.map (fun c => (c, a)) := by
  induction callers with
  | nil => exact ⟨rfl, rfl⟩
  | cons c rest ih =>
    unfold GetInstance_calls
    simp only [GetInstance_of_constructed p a h, List.map_cons]
    exact ⟨ih.1, by rw [ih.2]⟩

theorem result_found (keys : List Int) (s : System) (hinv : Invariant keys s)
    (t : Thread) (ht : t ∈ s.threads) (r : String) (hr : t.result = some r) :
    r = foundResult t.key := by
  rcases hinv.2.2 with hf | ⟨c, hb⟩
  · rw [(hf.2.2.2 t ht).2] at hr
    exact absurd hr (by simp)
  · have hok := hb.2.2.2.1 t ht
    unfold ThreadOk at hok
    cases hpc : t.pc <;> simp only [hpc] at hok
    · rw [hok] at hr; exact absurd hr (by simp)
    · rw [hok.2] at hr; exact absurd hr (by simp)
    · rw [hok.2.1] at hr; exact absurd hr (by simp)
    · rw [hok.2.1] at hr; exact absurd hr (by simp)
    · rw [hok.1] at hr; exact (Option.some.inj hr).symm
    · rw [hok.1] at hr; exact (Option.some.inj hr).symm

/-! ## The claims -/

/-- C1: after `SaveData(k, v)` on any store, followed by any sequence of
`GetData` calls and of `SaveData` calls on keys other than `k`, `GetData(k)`
returns exactly `"Data for Key " ++ decimal(k) ++ ": " ++ v`, a string in which
both the decimal rendering of `k` and `v` occur. -/
theorem GetData_after_SaveData (self : DatabaseConnection) (cout : String) (k : Int)
    (v : String) (calls : List Call) (h : ∀ w, Call.save k w ∉ calls) :
    ((performAll (self.SaveData k v cout) calls).1.GetData k).1
        = "Data for Key " ++ to_string k ++ ": " ++ v
      ∧ occursIn (to_string k) ((performAll (self.SaveData k v cout) calls).1.GetData k).1
      ∧ occursIn v ((performAll (self.SaveData k v cout) calls).1.GetData k).1 := by
  have hf : (performAll (self.SaveData k v cout) calls).1._database.find k = some v := by
    rw [find_performAll calls _ k h]
    show (self.store k v)._database.find k = some v
    rw [find_store, if_pos rfl]
  have hr : ((performAll (self.SaveData k v cout) calls).1.GetData k).1
      = "Data for Key " ++ to_string k ++ ": " ++ v := by
    rw [GetData_fst, hf]
  refine ⟨hr, ?_, ?_⟩
  · rw [hr, String.append_assoc]
    exact occursIn_middle _ _ _
  · rw [hr]
    exact occursIn_end _ _

/-- On the empty store: `SaveData(-3, "")`, then four calls that do not save
under `-3`, then `GetData(-3)`. -/
theorem GetData_after_SaveData_witness :
    (∀ w, Call.save (-3) w ∉ [Call.get (-3), Call.save 4 "x", Call.get 9, Call.save 0 "y"])
      ∧ ((performAll (DatabaseConnection.new.SaveData (-3) "" "")
            [Call.get (-3), Call.save 4 "x", Call.get 9, Call.save 0 "y"]).1.GetData (-3)).1
          = "Data for Key -3: " :=
  ⟨by intro w hw; simp at hw,
   (GetData_after_SaveData DatabaseConnection.new "" (-3) ""
      [Call.get (-3), Call.save 4 "x", Call.get 9, Call.save 0 "y"]
      (by intro w hw; simp at hw)).1⟩

/-- C2: on a store reached from the empty store by calls among which no
`SaveData` used key `k` (`GetData` calls may be among them), `GetData(k)` returns
exactly `"No Data found for Key " ++ decimal(k)`, for every integer `k`: the
decimal rendering of `k` occurs in it and it does not start with
`"Data for Key "`. -/
theorem GetData_key_never_saved (k : Int) (cout : String) (calls : List Call)
    (h : ∀ w, Call.save k w ∉ calls) :
    ((performAll (DatabaseConnection.new, cout) calls).1.GetData k).1
        = "No Data found for Key " ++ to_string k
      ∧ occursIn (to_string k) ((performAll (DatabaseConnection.new, cout) calls).1.GetData k).1
      ∧ ¬ startsWith ((performAll (DatabaseConnection.new, cout) calls).1.GetData k).1
            "Data for Key " := by
  have hf : (performAll (DatabaseConnection.new, cout) calls).1._database.find k = none := by
    rw [find_performAll calls _ k h]
    rfl
  have hr : ((performAll (DatabaseConnection.new, cout) calls).1.GetData k).1
      = "No Data found for Key " ++ to_string k := by
    rw [GetData_fst, hf]
  refine ⟨hr, ?_, ?_⟩
  · rw [hr]
    exact occursIn_end _ _
  · rw [hr]
    unfold startsWith
    rintro ⟨t, ht⟩
    rw [String.data_append] at ht
    have h1 : "Data for Key ".data = 'D' :: "ata for Key ".data := rfl
    have h2 : "No Data found for Key ".data = 'N' :: "o Data found for Key ".data := rfl
    rw [h1, h2, List.cons_append, List.cons_append] at ht
    exact absurd (List.cons.inj ht).1 (by decide)

/-- Two saves under other keys and a read: `GetData(-12)` finds nothing. -/
theorem GetData_key_never_saved_witness :
    (∀ w, Call.save (-12) w ∉ [Call.save 5 "a", Call.save 12 "b", Call.get (-12)])
      ∧ ((performAll (DatabaseConnection.new, "")
            [Call.save 5 "a", Call.save 12 "b", Call.get (-12)]).1.GetData (-12)).1
          = "No Data found for Key -12" :=
  ⟨by intro w hw; simp at hw,
   (GetData_key_never_saved (-12) "" [Call.save 5 "a", Call.save 12 "b", Call.get (-12)]
      (by intro w hw; simp at hw)).1⟩

/-- C3: for every non-empty sequence of `GetInstance` calls run as atomic steps
from the initial state (`_instance` is `nullptr`), whoever the callers are and
in whatever order they call: the first call constructs the instance (one object
exists after it and `_instance` points to it), every call returns the reference
the first call returned, one object has been constructed at the end (the
constructor ran once), and the output is the notice
`"Database Connection Created.\n"`, written once. -/
theorem GetInstance_constructs_once (callers : List Nat) (h : callers ≠ []) :
    (GetInstance Process.initial).2.heap.length = 1
      ∧ (GetInstance Process.initial).2._instance = some (GetInstance Process.initial).1
      ∧ (GetInstance_calls callers Process.initial).1
          = callers.map (fun c => (c, (GetInstance Process.initial).1))
      ∧ (GetInstance_calls callers Process.initial).2.heap.length = 1
      ∧ (GetInstance_calls callers Process.initial).2.cout = "Database Connection Created.\n" := by
  cases callers with
  | nil => exact absurd rfl h
  | cons c rest =>
    have hrest := GetInstance_calls_of_constructed rest (GetInstance Process.initial).2
      (GetInstance Process.initial).1 rfl
    refine ⟨rfl, rfl, ?_, ?_, ?_⟩
    · show (c, (GetInstance Process.initial).1)
          :: (GetInstance_calls rest (GetInstance Process.initial).2).1 = _
      rw [hrest.2, List.map_cons]
    · show (GetInstance_calls rest (GetInstance Process.initial).2).2.heap.length = 1
      rw [hrest.1]
      rfl
    · show (GetInstance_calls rest (GetInstance Process.initial).2).2.cout = _
      rw [hrest.1]
      decide

/-- Four calls by three callers: all receive reference 0 and one notice is
written. -/
theorem GetInstance_constructs_once_witness :
    [2, 0, 1, 0] ≠ []
      ∧ (GetInstance_calls [2, 0, 1, 0] Process.initial).1 = [(2, 0), (0, 0), (1, 0), (0, 0)]
      ∧ (GetInstance_calls [2, 0, 1, 0] Process.initial).2.heap.length = 1
      ∧ (GetInstance_calls [2, 0, 1, 0] Process.initial).2.cout
          = "Database Connection Created.\n" :=
  ⟨by decide,
   (GetInstance_constructs_once [2, 0, 1, 0] (by decide)).2.2.1,
   (GetInstance_constructs_once [2, 0, 1, 0] (by decide)).2.2.2.1,
   (GetInstance_constructs_once [2, 0, 1, 0] (by decide)).2.2.2.2⟩

/-- C4: after `SaveData(k, v1)` and then `SaveData(k, v2)` on any store,
`GetData(k)` returns `"Data for Key " ++ decimal(k) ++ ": " ++ v2`, and the
elements of the store with key `k` are the single element `(k, v2)`; when `v1`
differs from `v2` no element `(k, v1)` is left. -/
theorem SaveData_twice_last_wins (self : DatabaseConnection) (cout : String) (k : Int)
    (v1 v2 : String) :
    (((self.SaveData k v1 cout).1.SaveData k v2 (self.SaveData k v1 cout).2).1.GetData k).1
        = "Data for Key " ++ to_string k ++ ": " ++ v2
      ∧ ((self.SaveData k v1 cout).1.SaveData k v2
            (self.SaveData k v1 cout).2).1._database.entries.filter (fun e => decide (e.1 = k))
          = [(k, v2)]
      ∧ (v1 ≠ v2 → (k, v1) ∉ ((self.SaveData k v1 cout).1.SaveData k v2
            (self.SaveData k v1 cout).2).1._database.entries) := by
  have hf : ((self.SaveData k v1 cout).1.SaveData k v2
      (self.SaveData k v1 cout).2).1._database.find k = some v2 := by
    show ((self.store k v1).store k v2)._database.find k = some v2
    rw [find_store, if_pos rfl]
  have hfilter := filter_key_of_lookup _ k v2
    ((self.SaveData k v1 cout).1.SaveData k v2 (self.SaveData k v1 cout).2).1._database.nodup hf
  refine ⟨by rw [GetData_fst, hf], hfilter, ?_⟩
  intro hne hmem
  have hin : (k, v1) ∈ ((self.SaveData k v1 cout).1.SaveData k v2
      (self.SaveData k v1 cout).2).1._database.entries.filter (fun e => decide (e.1 = k)) :=
    List.mem_filter.2 ⟨hmem, by simp⟩
  rw [hfilter, List.mem_singleton] at hin
  exact hne (Prod.mk.inj hin).2

/-- C5: for every number of workers and every list of pairwise distinct keys,
one per worker, every execution of the workers from the initial state (no
`SaveData` has run) in which all workers return, whatever the order of their
atomic steps (the executions in which every call is one step are among them,
`runCalls_is_run`), ends with exactly as many elements stored as there are
workers;
and for the key `k` of each worker the one object exists, `_instance` points to
it, its map has as many elements as there are workers, and a later `GetData(k)`
on it returns
`"Data for Key " ++ decimal(k) ++ ": Data from thread " ++ decimal(k)`. -/
theorem workers_distinct_keys (keys : List Int) (sched : List Nat) (final : System)
    (hd : keys.Nodup) (hrun : run (spawn keys) sched = some final) (hfin : finished final) :
    stored final = keys.length
      ∧ ∀ k ∈ keys, ∃ c, final.proc.heap = [c] ∧ final.proc._instance = some 0
          ∧ c.object._database.size = keys.length
          ∧ (c.object.GetData k).1
            = "Data for Key " ++ to_string k ++ ": Data from thread " ++ to_string k := by
  have hinv := reachable_invariant keys sched final hrun
  by_cases hne : keys = []
  · subst hne
    rw [run_no_threads sched final hrun]
    exact ⟨rfl, fun k hk => absurd hk (List.not_mem_nil k)⟩
  · obtain ⟨c, hb, hall⟩ := finished_built keys final hinv hfin hne
    have hkeys := finished_keys keys final c hinv hb (fun t ht => (hall t ht).2)
    have hsize : c.object._database.entries.length = keys.length := by
      rw [← List.length_map c.object._database.entries Prod.fst]
      exact List.Perm.length_eq
        ((List.perm_ext_iff_of_nodup c.object._database.nodup hd).2 hkeys)
    constructor
    · rw [stored_built final c hb, hsize]
    · intro k hk
      refine ⟨c, hb.1, hb.2.1, hsize, ?_⟩
      rw [← hinv.1] at hk
      obtain ⟨t, ht, rfl⟩ := List.mem_map.1 hk
      rw [← foundResult_eq]
      exact GetData_found _ _ (hall t ht).2

/-- Three workers with the keys 4, -7 and 19 and an execution in which their steps
alternate: three elements are stored at the end. -/
theorem workers_distinct_keys_witness :
    [4, -7, 19].Nodup
      ∧ ∃ final,
          run (spawn [4, -7, 19])
            [2, 0, 1, 1, 1, 1, 1, 1, 1, 1, 0, 0, 0, 0, 0, 0, 0, 1, 2, 1, 2, 2, 2, 2, 2, 2, 1, 1,
             0, 0, 2, 2, 0, 0, 2, 2] = some final
          ∧ finished final ∧ stored final = 3 :=
  ⟨by decide,
   (run (spawn [4, -7, 19])
      [2, 0, 1, 1, 1, 1, 1, 1, 1, 1, 0, 0, 0, 0, 0, 0, 0, 1, 2, 1, 2, 2, 2, 2, 2, 2, 1, 1,
       0, 0, 2, 2, 0, 0, 2, 2]).get (by decide),
   (Option.some_get _).symm, by decide,
   (workers_distinct_keys [4, -7, 19] _ _ (by decide) (Option.some_get _).symm (by decide)).1⟩

/-- C6, the claim as stated fails: with the keys 1 to 5, the first two threads
run up to the return of `GetData`, then write their results one after the
other and their newline characters one after the other. The output has 11
lines, but one of them holds the two results together and one is empty, so only
four lines start with `"Data for Key "`. -/
theorem mainThreads_output_garbled :
    ∃ final,
      run (mainThreads 1 2 3 4 5)
        [0, 0, 0, 0, 0, 0, 0, 0, 0, 1, 1, 1, 1, 1, 1, 1, 1, 1, 0, 1, 0, 1, 0, 1,
         2, 2, 2, 2, 2, 2, 2, 2, 2, 2, 2, 2, 3, 3, 3, 3, 3, 3, 3, 3, 3, 3, 3, 3,
         4, 4, 4, 4, 4, 4, 4, 4, 4, 4, 4, 4] = some final
      ∧ finished final
      ∧ lines final.proc.cout
          = ["Database Connection Created.",
             "Data Saved: Key = 1, Value = Data from thread 1",
             "Data Saved: Key = 2, Value = Data from thread 2",
             "Data for Key 1: Data from thread 1Data for Key 2: Data from thread 2",
             "",
             "Data Saved: Key = 3, Value = Data from thread 3",
             "Data for Key 3: Data from thread 3",
             "Data Saved: Key = 4, Value = Data from thread 4",
             "Data for Key 4: Data from thread 4",
             "Data Saved: Key = 5, Value = Data from thread 5",
             "Data for Key 5: Data from thread 5"]
      ∧ ((lines final.proc.cout).filter
          (fun l => decide (startsWith l "Data for Key "))).length = 4 :=
  ⟨(run (mainThreads 1 2 3 4 5)
      [0, 0, 0, 0, 0, 0, 0, 0, 0, 1, 1, 1, 1, 1, 1, 1, 1, 1, 0, 1, 0, 1, 0, 1,
       2, 2, 2, 2, 2, 2, 2, 2, 2, 2, 2, 2, 3, 3, 3, 3, 3, 3, 3, 3, 3, 3, 3, 3,
       4, 4, 4, 4, 4, 4, 4, 4, 4, 4, 4, 4]).get (by decide),
   (Option.some_get _).symm, by decide, by decide, by decide⟩

/-- C6, amended: for the five workers of `main`, whatever their keys, and for
every execution in which all of them return, each single `<<` being one step:
the output holds exactly 11 newline characters and starts with the line
`"Database Connection Created."`, and the result every worker received from
`GetData` and wrote is the found form
`"Data for Key " ++ decimal(key) ++ ": Data from thread " ++ decimal(key)`.
When moreover every call (`GetInstance`, `SaveData`, `GetData`, the output of
line 94) ran without a step of another thread in between, the output is the
creation line followed, in some order, by the five confirmation lines and the
five found lines, each whole. -/
theorem mainThreads_output (k0 k1 k2 k3 k4 : Int) (sched : List Nat) (final : System)
    (hrun : run (mainThreads k0 k1 k2 k3 k4) sched = some final) (hfin : finished final) :
    newlines final.proc.cout = 11
      ∧ startsWith final.proc.cout "Database Connection Created.\n"
      ∧ (∀ t ∈ final.threads, t.result
          = some ("Data for Key " ++ to_string t.key ++ ": Data from thread "
              ++ to_string t.key))
      ∧ ((∃ calls, runCalls (mainThreads k0 k1 k2 k3 k4) calls = some final) →
          ∃ body, final.proc.cout = insertAll "Database Connection Created.\n" body
            ∧ List.Perm body
                ([k0, k1, k2, k3, k4].map saveLine ++ [k0, k1, k2, k3, k4].map foundLine)) := by
  have hne : [k0, k1, k2, k3, k4] ≠ [] := by simp
  obtain ⟨h1, h2, h3⟩ := finished_output [k0, k1, k2, k3, k4] sched final hne hrun hfin
  refine ⟨h1, h2, ?_, ?_⟩
  · intro t ht
    rw [← foundResult_eq]
    exact h3 t ht
  · rintro ⟨calls, hcalls⟩
    exact finished_output_calls [k0, k1, k2, k3, k4] calls final hne hcalls hfin

/-- Five workers with the keys 11, -4, 7, 0 and 25 and an execution in which the
calls alternate but every call runs whole: 11 newline characters, and the
creation line followed by the ten whole lines. -/
theorem mainThreads_output_witness :
    ∃ final,
      run (mainThreads 11 (-4) 7 0 25)
        [0, 1, 2, 3, 4, 3, 3, 3, 3, 3, 3, 3, 3, 3, 3, 3, 0, 0, 0, 0, 0, 0, 0,
         1, 1, 1, 1, 1, 1, 1, 0, 1, 0, 0, 0, 1, 1, 1, 4, 4, 4, 4, 4, 4, 4,
         2, 2, 2, 2, 2, 2, 2, 4, 2, 4, 4, 4, 2, 2, 2] = some final
      ∧ finished final
      ∧ runCalls (mainThreads 11 (-4) 7 0 25)
          [0, 1, 2, 3, 4, 3, 3, 3, 0, 1, 0, 1, 0, 1, 4, 2, 4, 2, 4, 2] = some final
      ∧ newlines final.proc.cout = 11
      ∧ ∃ body, final.proc.cout = insertAll "Database Connection Created.\n" body
          ∧ List.Perm body
              ([11, -4, 7, 0, 25].map saveLine ++ [11, -4, 7, 0, 25].map foundLine) :=
  ⟨(run (mainThreads 11 (-4) 7 0 25)
      [0, 1, 2, 3, 4, 3, 3, 3, 3, 3, 3, 3, 3, 3, 3, 3, 0, 0, 0, 0, 0, 0, 0,
       1, 1, 1, 1, 1, 1, 1, 0, 1, 0, 0, 0, 1, 1, 1, 4, 4, 4, 4, 4, 4, 4,
       2, 2, 2, 2, 2, 2, 2, 4, 2, 4, 4, 4, 2, 2, 2]).get (by decide),
   (Option.some_get _).symm, by decide, rfl,
   (mainThreads_output 11 (-4) 7 0 25 _ _ (Option.some_get _).symm (by decide)).1,
   (mainThreads_output 11 (-4) 7 0 25 _ _ (Option.some_get _).symm (by decide)).2.2.2
     ⟨[0, 1, 2, 3, 4, 3, 3, 3, 0, 1, 0, 1, 0, 1, 4, 2, 4, 2, 4, 2], rfl⟩⟩

/-- C7, the claim as stated fails: for the value `"a\nb"` the text one
`SaveData` call appends holds two newline characters, so it is two lines. -/
theorem SaveData_value_with_newline :
    (DatabaseConnection.new.SaveData 7 "a\nb" "").2 = "Data Saved: Key = 7, Value = a\nb\n"
      ∧ newlines (DatabaseConnection.new.SaveData 7 "a\nb" "").2 = 2 := by
  decide

/-- C7, amended: one `SaveData(k, v)` call appends to standard output exactly
the text `"Data Saved: Key = " ++ decimal(k) ++ ", Value = " ++ v ++ "\n"`, in
which the key and the value occur; it holds one newline character more than `v`
does, so it is exactly one line when `v` holds no newline character. -/
theorem SaveData_appends_confirmation (self : DatabaseConnection) (cout : String) (k : Int)
    (v : String) :
    (self.SaveData k v cout).2
        = cout ++ ("Data Saved: Key = " ++ to_string k ++ ", Value = " ++ v ++ "\n")
      ∧ occursIn (to_string k) ("Data Saved: Key = " ++ to_string k ++ ", Value = " ++ v ++ "\n")
      ∧ occursIn v ("Data Saved: Key = " ++ to_string k ++ ", Value = " ++ v ++ "\n")
      ∧ newlines ("Data Saved: Key = " ++ to_string k ++ ", Value = " ++ v ++ "\n")
          = newlines v + 1 := by
  refine ⟨?_, ?_, ?_, ?_⟩
  · show insertAll cout (SaveData_output k v) = _
    simp [insertAll, SaveData_output, String.append_assoc]
  · rw [String.append_assoc ("Data Saved: Key = " ++ to_string k), String.append_assoc]
    exact occursIn_middle _ _ _
  · exact occursIn_middle _ _ _
  · rw [newlines_append, newlines_append, newlines_append, newlines_append, newlines_to_string]
    have h1 : newlines "Data Saved: Key = " = 0 := by decide
    have h2 : newlines ", Value = " = 0 := by decide
    have h3 : newlines "\n" = 1 := by decide
    omega

/-- C9: `GetData` leaves the object as it was, for a key that is present and
for one that is absent: the same elements, the same size, an absent key stays
absent, and a second `GetData` on the same key returns the same string. -/
theorem GetData_read_only (self : DatabaseConnection) (k : Int) :
    (self.GetData k).2 = self
      ∧ (self.GetData k).2._database.entries = self._database.entries
      ∧ (self.GetData k).2._database.size = self._database.size
      ∧ (self._database.find k = none → (self.GetData k).2._database.find k = none)
      ∧ ((self.GetData k).2.GetData k).1 = (self.GetData k).1 := by
  have h := GetData_snd self k
  refine ⟨h, by rw [h], by rw [h], fun hn => by rw [h]; exact hn, by rw [h]⟩

/-- C10: for any number of workers with any keys, equal keys included, and for
every execution from the initial state, whatever the order of the atomic steps
(the executions in which every call is one step are among them):
the workers keep their keys; at every moment the string `GetData` has returned
to a worker, if it has returned, is exactly
`"Data for Key " ++ decimal(key) ++ ": Data from thread " ++ decimal(key)` for
the worker's own key (never the not-found string, never another value); and
once all workers have returned, every worker holds that string and the number
of elements stored is the number of distinct keys. -/
theorem workers_colliding_keys (keys : List Int) (sched : List Nat) (final : System)
    (hrun : run (spawn keys) sched = some final) :
    final.threads.map Thread.key = keys
      ∧ (∀ t ∈ final.threads, ∀ r, t.result = some r →
          r = "Data for Key " ++ to_string t.key ++ ": Data from thread " ++ to_string t.key)
      ∧ (finished final →
          (∀ t ∈ final.threads, t.result
            = some ("Data for Key " ++ to_string t.key ++ ": Data from thread "
                ++ to_string t.key))
          ∧ stored final = keys.dedup.length) := by
  have hinv := reachable_invariant keys sched final hrun
  refine ⟨hinv.1, ?_, ?_⟩
  · intro t ht r hr
    rw [← foundResult_eq]
    exact result_found keys final hinv t ht r hr
  · intro hfin
    by_cases hne : keys = []
    · subst hne
      rw [run_no_threads sched final hrun]
      exact ⟨fun t ht => absurd ht (List.not_mem_nil t), rfl⟩
    · obtain ⟨c, hb, hall⟩ := finished_built keys final hinv hfin hne
      have hkeys := finished_keys keys final c hinv hb (fun t ht => (hall t ht).2)
      constructor
      · intro t ht
        rw [← foundResult_eq]
        exact (hall t ht).1
      · rw [stored_built final c hb, ← List.length_map c.object._database.entries Prod.fst]
        apply List.Perm.length_eq
        apply (List.perm_ext_iff_of_nodup c.object._database.nodup (List.nodup_dedup keys)).2
        intro k
        rw [hkeys k, List.mem_dedup]

/-- Three workers of which two derive the key 5: each receives the found form
for its key, and two elements are stored at the end. -/
theorem workers_colliding_keys_witness :
    ∃ final,
      run (spawn [5, -2, 5])
        [0, 2, 1, 2, 2, 2, 2, 2, 2, 2, 0, 0, 0, 0, 0, 0, 0, 2, 1, 2, 1, 1, 1, 1, 1, 1, 0, 1, 2,
         2, 0, 1, 0, 1, 1, 0] = some final
      ∧ finished final
      ∧ final.threads.map Thread.result
          = [some "Data for Key 5: Data from thread 5",
             some "Data for Key -2: Data from thread -2",
             some "Data for Key 5: Data from thread 5"]
      ∧ stored final = 2 :=
  ⟨(run (spawn [5, -2, 5])
      [0, 2, 1, 2, 2, 2, 2, 2, 2, 2, 0, 0, 0, 0, 0, 0, 0, 2, 1, 2, 1, 1, 1, 1, 1, 1, 0, 1, 2,
       2, 0, 1, 0, 1, 1, 0]).get (by decide),
   (Option.some_get _).symm, by decide, by decide,
   ((workers_colliding_keys [5, -2, 5] _ _ (Option.some_get _).symm).2.2 (by decide)).2⟩
